import Mathlib

/-!
Verification of the grayBoxes execution-tree lifecycle engine
(`grayboxes/base.py`, `grayboxes/loop.py`).

The development shallowly embeds the two core classes:

* `Loop` (file `loop.py`): the nonlinear-iteration / transient-stepping
  controller.  Python floats are modelled as exact rationals (`ℚ`); the
  constants involved in the claims (0.25, 0.01, 1e-10, ...) behave
  identically under exact arithmetic.  Python `while` loops are embedded
  as fuel-indexed recursions; theorems either hold for every fuel or are
  stated with fuel large enough that the loop's own guard terminates it.
* `Base` (file `base.py`): the leader/follower object tree.  Object
  identity is modelled by natural-number ids; the heap is a total map
  `State : Nat → Node`.  Python `==` on `Base` objects is identity
  comparison (no `__eq__` override), hence id equality.  A fallible
  operation (one that can raise `AttributeError`, `ZeroDivisionError` or
  an `assert`) returns `Option`; `none` means the Python code raises.
  Logging, timers and `sys.stdout` effects are not part of the state.
* the recursive phase traversals `pre` / `task` / `post` are additionally
  embedded over an inductive tree (`PTree`) whose follower lists carry
  `Option` slots (`none` = a hole left by destruction), which mirrors the
  recursive-call structure of the Python methods directly.
-/

namespace GrayBoxes

/-- `np.clip(x, lo, hi)`, i.e. `np.minimum(hi, np.maximum(x, lo))`, on
rationals (spelled with `if` so that it evaluates by `decide`). -/
def clip (x lo hi : ℚ) : ℚ :=
  let y := if x ≤ lo then lo else x
  if hi ≤ y then hi else y

/-- `np.clip` on integers (used for `n_it_min` / `n_it_max`). -/
def clipI (x lo hi : ℤ) : ℤ :=
  let y := if x ≤ lo then lo else x
  if hi ≤ y then hi else y

/-- The nonlinear/transient fields a `Loop` object carries
(`Loop.__init__`, loop.py lines 41-52). -/
structure LoopState where
  it       : ℤ := 0        -- actual number of iterations
  n_it_min : ℤ := 0        -- minimum number of iterations
  n_it_max : ℤ := 0        -- maximum number of iterations
  epsilon  : ℚ := 0        -- maximum residuum tolerated
  omega    : ℚ := 1        -- relaxation factor
  t        : ℚ := 0        -- actual time
  t_begin  : ℚ := 0        -- start time
  tEnd     : ℚ := 0        -- final time
  dt       : ℚ := 1/100    -- time step size
  theta    : ℚ := 1/2      -- time discretization scheme
deriving DecidableEq, Repr

/-- `Loop.is_nonlinear` (loop.py line 74). -/
def isNonlinear (st : LoopState) : Bool := st.n_it_max > 0

/-- `Loop.is_transient` (loop.py line 77). -/
def isTransient (st : LoopState) : Bool := st.tEnd > 0

/-- `Loop.set_nonlinear` (loop.py lines 80-92).  The `None` defaulting of
`n_it_max` is not representable for an integer argument and is dropped. -/
def set_nonlinear (st : LoopState) (n_it_min n_it_max : ℤ) (epsilon omega : ℚ) :
    LoopState :=
  let nMax := clipI n_it_max 0 1000000
  if nMax > 0 then
    { st with
      n_it_max := nMax
      n_it_min := clipI n_it_min 0 n_it_max
      epsilon  := clip epsilon 0 1
      omega    := clip omega 0 2 }
  else
    { st with n_it_max := nMax }

/-- `Loop.set_transient` (loop.py lines 94-108), translated line by line:
`tEnd` is clipped and stored first; when it is positive, the assertion
`n > 0` is only checked when `dt < 1e-20`, yet `dt` is ALWAYS recomputed
as `(tEnd - t_begin) / n` on the next line — the passed `dt` is discarded.
`none` models the crash (`AssertionError` when `dt < 1e-20` and `n = 0`,
`ZeroDivisionError` when `n = 0` otherwise). -/
def set_transient (st : LoopState) (t_begin t_end dt theta : ℚ) (n : ℕ) :
    Option LoopState :=
  let tEnd := clip t_end 0 1000000
  if tEnd > 0 then
    if dt < 1/10^20 ∧ n = 0 then none
    else if n = 0 then none
    else
      some { st with
        tEnd    := tEnd
        t_begin := clip t_begin 0 t_end
        dt      := (tEnd - t_begin) / (n : ℚ)
        theta   := clip theta 0 1 }
  else
    some { st with tEnd := tEnd }

/-- Hypothetical `set_transient` modelled from the spec's words
(spec §3 "timeStep", §4.2 edge case): the caller-supplied `timeStep` is
kept whenever it is not effectively zero; only an effectively-zero
`timeStep` is derived from the step-count hint `n`.  Used to exhibit what
claim C2 expects the configuration to do. -/
def set_transient_spec (st : LoopState) (t_begin t_end dt theta : ℚ) (n : ℕ) :
    Option LoopState :=
  let tEnd := clip t_end 0 1000000
  if tEnd > 0 then
    if dt < 1/10^20 then
      if n = 0 then none
      else
        some { st with
          tEnd    := tEnd
          t_begin := clip t_begin 0 t_end
          dt      := (tEnd - t_begin) / (n : ℚ)
          theta   := clip theta 0 1 }
    else
      some { st with
        tEnd    := tEnd
        t_begin := clip t_begin 0 t_end
        dt      := dt
        theta   := clip theta 0 1 }
  else
    some { st with tEnd := tEnd }

/-- The `1e-10` round-off tolerance in the transient `while` guard
(loop.py line 178). -/
def tEps : ℚ := 1/10^10

/-- One run of `_nonlinear_iteration` (loop.py lines 154-165):
`self.it = -1; _res = np.inf; while self.it < self.n_it_max: self.it += 1;
self.update_nonlinear(); _res = self.task(**kwargs);
if _res <= self.epsilon and self.it >= self.n_it_min: break; return _res`.

`task` is the task stub, consumed by global call index (`calls` counts the
task invocations made so far); `tcur` is the current physical time,
recorded in the call log.  `res = none` models `np.inf` (never returned
once a task call happened).  The `while` guard terminates the loop by
itself after at most `n_it_max + 1` rounds, so any `fuel` at least that
large gives the Python behaviour. -/
def nonlinGo (task : ℕ → ℚ) (n_it_max n_it_min : ℤ) (eps : ℚ) (tcur : ℚ) :
    ℕ → ℤ → Option ℚ → List ℚ → ℤ × Option ℚ × List ℚ
  | 0, it, res, log => (it, res, log)
  | fuel + 1, it, res, log =>
    if it < n_it_max then
      let it' := it + 1
      let r := task log.length
      let log' := log ++ [tcur]
      if r ≤ eps ∧ n_it_min ≤ it' then (it', some r, log')
      else nonlinGo task n_it_max n_it_min eps tcur fuel it' (some r) log'
    else (it, res, log)

/-- The transient `while` loop of `Loop.control` (loop.py lines 176-187):
`self.t = 0.0; res = np.inf; while (self.t + 1e-10) < self.tEnd:
self.t += self.dt; self.update_transient();
if self.is_nonlinear(): res = _nonlinear_iteration()
else: res = self.task(**kwargs)`.
`update_transient` only copies `t`, `dt`, `theta` from the root, a no-op
for the single-object tree modelled here.  `tEps` is the literal `1e-10`
round-off guard of the `while` condition.  Returns (final it, final t,
result, log of `t` values at each task call). -/
def transientGo (task : ℕ → ℚ) (st : LoopState) :
    ℕ → ℤ → ℚ → Option ℚ → List ℚ → ℤ × ℚ × Option ℚ × List ℚ
  | 0, it, t, res, log => (it, t, res, log)
  | fuel + 1, it, t, res, log =>
    if t + tEps < st.tEnd then
      let t' := t + st.dt
      if isNonlinear st then
        let (it', res', log') :=
          nonlinGo task st.n_it_max st.n_it_min st.epsilon t'
            (st.n_it_max + 1).toNat (-1) none log
        transientGo task st fuel it' t' res' log'
      else
        let r := task log.length
        transientGo task st fuel it t' (some r) (log ++ [t'])
    else (it, t, res, log)

/-- `Loop.control` (loop.py lines 125-196).  Timing banners and `write`
calls are logging only and are omitted.  `initial_condition` and
`update_nonlinear` recurse over followers and mutate nothing in the base
class, a no-op for the single-object tree modelled here.  In the
steady-and-linear case `Base.control` runs `task` exactly once.
Returns the updated state, the residuum (`none` = `np.inf`, unreachable
in enabled modes) and the log of `t` values at each task call. -/
def control (task : ℕ → ℚ) (st : LoopState) (fuel : ℕ) :
    LoopState × Option ℚ × List ℚ :=
  if ¬ isTransient st ∧ ¬ isNonlinear st then
    (st, some (task 0), [st.t])
  else if ¬ isTransient st then
    let (it', res, log) :=
      nonlinGo task st.n_it_max st.n_it_min st.epsilon st.t
        (st.n_it_max + 1).toNat (-1) none []
    ({ st with it := it' }, res, log)
  else
    let (it', t', res, log) := transientGo task st fuel 0 0 none []
    ({ st with it := it', t := t' }, res, log)

/-- The residual stub of claim C1: `1.0, 0.5, 0.1, 0.005, 0.001, ...`. -/
def stubC1 : ℕ → ℚ
  | 0 => 1
  | 1 => 1/2
  | 2 => 1/10
  | 3 => 1/200
  | _ => 1/1000

/-- Loop invariant for `_nonlinear_iteration`: starting from iteration
counter `it` with `fuel = n_it_max - it` remaining rounds, a task log of
matching length, the residual of the iteration just performed, and no
stopping condition satisfied up to `it`, the loop ends at the first
iteration `itf` whose residual passes the `epsilon`/`n_it_min` test, or
at `n_it_max` if none does, returning that iteration's residual. -/
lemma nonlinGo_ind (task : ℕ → ℚ) (nmax nmin : ℤ) (eps tc : ℚ)
    (hnmax : 1 ≤ nmax) :
    ∀ (fuel : ℕ) (it : ℤ) (res : Option ℚ) (log : List ℚ),
    it + (fuel : ℤ) = nmax → -1 ≤ it →
    log.length = (it + 1).toNat →
    (0 ≤ it → res = some (task it.toNat)) →
    (∀ j : ℤ, 0 ≤ j → j ≤ it → ¬(task j.toNat ≤ eps ∧ nmin ≤ j)) →
    ∃ itf rv logf,
      nonlinGo task nmax nmin eps tc fuel it res log = (itf, some rv, logf) ∧
      it ≤ itf ∧ 0 ≤ itf ∧ itf ≤ nmax ∧
      rv = task itf.toNat ∧
      logf.length = (itf + 1).toNat ∧
      (∀ j : ℤ, 0 ≤ j → j < itf → ¬(task j.toNat ≤ eps ∧ nmin ≤ j)) ∧
      ((task itf.toNat ≤ eps ∧ nmin ≤ itf) ∨ itf = nmax) := by
  intro fuel
  induction fuel with
  | zero =>
    intro it res log hfuel hge hlen hres hprior
    have hit : it = nmax := by push_cast at hfuel; omega
    have h0 : 0 ≤ it := by omega
    refine ⟨it, task it.toNat, log, ?_, le_refl _, h0, le_of_eq hit, rfl, hlen,
      ?_, Or.inr hit⟩
    · simp [nonlinGo, hres h0]
    · intro j hj0 hjlt
      exact hprior j hj0 (le_of_lt hjlt)
  | succ f ih =>
    intro it res log hfuel hge hlen hres hprior
    have hlt : it < nmax := by push_cast at hfuel; omega
    have hcall : log.length = (it + 1).toNat := hlen
    have hr : task log.length = task (it + 1).toNat := by rw [hcall]
    simp only [nonlinGo, if_pos hlt]
    by_cases hstop : task log.length ≤ eps ∧ nmin ≤ it + 1
    · rw [if_pos hstop]
      refine ⟨it + 1, task log.length, log ++ [tc], rfl, by omega, by omega,
        by omega, by rw [hr], ?_, ?_, Or.inl ?_⟩
      · simp [hcall]; omega
      · intro j hj0 hjlt
        exact hprior j hj0 (by omega)
      · exact ⟨by rw [← hr]; exact hstop.1, hstop.2⟩
    · rw [if_neg hstop]
      have hres' : (0 : ℤ) ≤ it + 1 → some (task log.length) =
          some (task (it + 1).toNat) := fun _ => by rw [hr]
      have hprior' : ∀ j : ℤ, 0 ≤ j → j ≤ it + 1 →
          ¬(task j.toNat ≤ eps ∧ nmin ≤ j) := by
        intro j hj0 hjle
        rcases lt_or_eq_of_le hjle with hj | hj
        · exact hprior j hj0 (by omega)
        · subst hj; rw [hr] at hstop; exact hstop
      obtain ⟨itf, rv, logf, heq, hle, h0f, hfmax, hrv, hlenf, hpf, hdisj⟩ :=
        ih (it + 1) (some (task log.length)) (log ++ [tc]) (by omega)
          (by omega) (by simp [hcall]; omega) hres' hprior'
      exact ⟨itf, rv, logf, heq, by omega, h0f, hfmax, hrv, hlenf, hpf, hdisj⟩

/-- The `LoopState` produced by `set_nonlinear` with the claim-C1
parameters `minIterations = 2`, `maxIterations = 10`, `tolerance = 0.01`. -/
def stC1 : LoopState :=
  { it := 0, n_it_min := 2, n_it_max := 10, epsilon := 1/100, omega := 1,
    t := 0, t_begin := 0, tEnd := 0, dt := 1/100, theta := 1/2 }

/-- Claim C1 — nonlinear-only control.  First conjunct: in nonlinear-only
mode (`tEnd ≤ 0 < n_it_max`), `control` runs the nonlinear-iteration
algorithm from `it = -1`: it returns the residual of the final iteration
`itf`, which is the first iteration satisfying
`residual ≤ epsilon ∧ it ≥ n_it_min` (no earlier iteration does), or
`n_it_max` if none does, having called `task` exactly `itf + 1` times.
Second conjunct: with `maxIterations = 10`, `minIterations = 2`,
`tolerance = 0.01` (configured through `set_nonlinear`) and the residual
stub `1.0, 0.5, 0.1, 0.005, ...`, the loop stops at iteration 3 after 4
task calls and `control` returns `0.005`. -/
theorem claim_C1_nonlinear_control :
    (∀ (task : ℕ → ℚ) (st : LoopState) (fuel : ℕ),
      isTransient st = false → isNonlinear st = true →
      ∃ itf rv log,
        control task st fuel = ({ st with it := itf }, some rv, log) ∧
        0 ≤ itf ∧ itf ≤ st.n_it_max ∧
        rv = task itf.toNat ∧
        log.length = (itf + 1).toNat ∧
        (∀ j : ℤ, 0 ≤ j → j < itf →
          ¬(task j.toNat ≤ st.epsilon ∧ st.n_it_min ≤ j)) ∧
        ((task itf.toNat ≤ st.epsilon ∧ st.n_it_min ≤ itf) ∨
          itf = st.n_it_max)) ∧
    set_nonlinear {} 2 10 (1/100) 1 = stC1 ∧
    control stubC1 stC1 0 =
      ({ stC1 with it := 3 }, some (1/200), [0, 0, 0, 0]) := by
  refine ⟨?_, by norm_num [set_nonlinear, clipI, clip, stC1],
    by norm_num [control, isTransient, isNonlinear, stC1, nonlinGo, stubC1]⟩
  intro task st fuel htr hnl
  have hnmax : 1 ≤ st.n_it_max := by
    simpa [isNonlinear, Int.lt_iff_add_one_le] using hnl
  obtain ⟨itf, rv, logf, heq, _, h0f, hfmax, hrv, hlenf, hpf, hdisj⟩ :=
    nonlinGo_ind task st.n_it_max st.n_it_min st.epsilon st.t hnmax
      (st.n_it_max + 1).toNat (-1) none [] (by omega) (by omega) (by simp)
      (by omega) (by intro j hj0 hjle; omega)
  refine ⟨itf, rv, logf, ?_, h0f, hfmax, hrv, hlenf, hpf, hdisj⟩
  simp only [control, htr, hnl]
  simp [heq]

/-- Witness for claim C1's quantified part: the nonlinear-only
characterization instantiated at the claim's concrete configuration. -/
theorem claim_C1_witness :
    ∃ itf rv log,
      control stubC1 stC1 0 = ({ stC1 with it := itf }, some rv, log) ∧
      0 ≤ itf ∧ itf ≤ stC1.n_it_max ∧
      rv = stubC1 itf.toNat ∧
      log.length = (itf + 1).toNat ∧
      (∀ j : ℤ, 0 ≤ j → j < itf →
        ¬(stubC1 j.toNat ≤ stC1.epsilon ∧ stC1.n_it_min ≤ j)) ∧
      ((stubC1 itf.toNat ≤ stC1.epsilon ∧ stC1.n_it_min ≤ itf) ∨
        itf = stC1.n_it_max) :=
  claim_C1_nonlinear_control.1 stubC1 stC1 0 (by decide) (by decide)

/-- The `LoopState` that `set_transient(t_begin=0, t_end=1.0, dt=0.25)`
actually produces: `dt` has been overwritten with `(1 - 0)/100 = 0.01`. -/
def stC2 : LoopState :=
  { it := 0, n_it_min := 0, n_it_max := 0, epsilon := 0, omega := 1,
    t := 0, t_begin := 0, tEnd := 1, dt := 1/100, theta := 1/2 }

/-- The `LoopState` that claim C2 expects the configuration to produce
(`timeStep` kept at `0.25`). -/
def stC2spec : LoopState :=
  { it := 0, n_it_min := 0, n_it_max := 0, epsilon := 0, omega := 1,
    t := 0, t_begin := 0, tEnd := 1, dt := 1/4, theta := 1/2 }

/-- A task stub returning the call index as residual, to identify which
call produced the returned residual. -/
def stubIdx : ℕ → ℚ := fun n => (n : ℚ)

/-- Loop invariant for the transient-and-linear `while` loop: with a
positive time step, and fuel large enough that `fuel` steps would leave
the guard false, the loop advances `t` by `dt` exactly `m` times — where
`m` is the first count making the guard `t + 1e-10 < tEnd` false — and
logs one task call at each new time. -/
lemma transientGo_linear_ind (task : ℕ → ℚ) (st : LoopState)
    (hnl : isNonlinear st = false) :
    ∀ (fuel : ℕ) (it : ℤ) (t : ℚ) (res : Option ℚ) (log : List ℚ),
    ¬ (t + (fuel : ℚ) * st.dt + tEps < st.tEnd) →
    0 < st.dt →
    ∃ m : ℕ, m ≤ fuel ∧
      transientGo task st fuel it t res log =
        (it, t + m * st.dt,
         if m = 0 then res else some (task (log.length + m - 1)),
         log ++ (List.range m).map (fun i : ℕ => t + ((i : ℚ) + 1) * st.dt)) ∧
      (∀ i : ℕ, i < m → t + (i : ℚ) * st.dt + tEps < st.tEnd) ∧
      ¬ (t + (m : ℚ) * st.dt + tEps < st.tEnd) := by
  intro fuel
  induction fuel with
  | zero =>
    intro it t res log hfuel hdt
    refine ⟨0, le_refl _, ?_, fun i hi => absurd hi (by omega), ?_⟩
    · simp [transientGo]
    · push_cast at hfuel ⊢
      intro hcon
      exact hfuel (by linarith)
  | succ f ih =>
    intro it t res log hfuel hdt
    by_cases hg : t + tEps < st.tEnd
    · have hunf : transientGo task st (f + 1) it t res log =
          transientGo task st f it (t + st.dt) (some (task log.length))
            (log ++ [t + st.dt]) := by
        simp only [transientGo, if_pos hg, hnl]
        rw [if_neg (by simp)]
      rw [hunf]
      obtain ⟨m, hmle, heq, hlo, hhi⟩ :=
        ih it (t + st.dt) (some (task log.length)) (log ++ [t + st.dt])
          (by push_cast at hfuel ⊢; intro hcon; exact hfuel (by linarith)) hdt
      refine ⟨m + 1, by omega, ?_, ?_, ?_⟩
      · rw [heq]
        have hres : (if m = 0 then some (task log.length)
            else some (task ((log ++ [t + st.dt]).length + m - 1))) =
            some (task (log.length + (m + 1) - 1)) := by
          rcases Nat.eq_zero_or_pos m with hm | hm
          · subst hm; simp
          · rw [if_neg (by omega)]
            have harith : (log ++ [t + st.dt]).length + m - 1 =
                log.length + (m + 1) - 1 := by
              simp only [List.length_append, List.length_singleton]
              omega
            rw [harith]
        have hlog : (log ++ [t + st.dt]) ++
            (List.range m).map
              (fun i : ℕ => (t + st.dt) + ((i : ℚ) + 1) * st.dt) =
            log ++ (List.range (m + 1)).map
              (fun i : ℕ => t + ((i : ℚ) + 1) * st.dt) := by
          rw [List.range_succ_eq_map, List.append_assoc]
          congr 1
          rw [List.singleton_append, List.map_cons, List.map_map]
          congr 1
          · norm_num
          · apply List.map_congr_left
            intro a _
            simp only [Function.comp_apply]
            push_cast
            ring
        simp only [Prod.mk.injEq, true_and]
        refine ⟨?_, ?_, ?_⟩
        · push_cast
          ring
        · rw [hres, if_neg (by omega : ¬ (m + 1 = 0))]
        · exact hlog
      · intro i hi
        rcases Nat.eq_zero_or_pos i with h0 | h0
        · subst h0
          simpa using hg
        · obtain ⟨i', rfl⟩ := Nat.exists_eq_succ_of_ne_zero (by omega : i ≠ 0)
          have := hlo i' (by omega)
          push_cast at this ⊢
          linarith
      · push_cast at hhi ⊢
        intro hcon
        exact hhi (by linarith)
    · refine ⟨0, by omega, ?_, fun i hi => absurd hi (by omega), ?_⟩
      · simp [transientGo, if_neg hg]
      · push_cast
        intro hcon
        exact hg (by linarith)

/-- Claim C2 — the code at the claim's input.  `set_transient` with
`t_begin = 0`, `t_end = 1.0`, `dt = 0.25` (and the default `n = 100`)
discards the passed `dt` and stores `(tEnd - t_begin)/n = 0.01`
(`stC2`), so `control` makes 100 task calls, at times
`0.01, 0.02, ..., 1.0` — not the 4 calls at `0.25, 0.5, 0.75, 1.0` the
claim states.  The spec-modelled configuration `set_transient_spec`
(keep a non-tiny `timeStep`) produces exactly the claimed behaviour:
4 calls at times `0.25, 0.5, 0.75, 1.0`, returning the last call's
residual. -/
theorem claim_C2_transient_eval :
    set_transient {} 0 1 (1/4) (1/2) 100 = some stC2 ∧
    stC2.dt = 1/100 ∧
    (control stubIdx stC2 101).2.2 =
      (List.range 100).map (fun i : ℕ => ((i : ℚ) + 1) * (1/100)) ∧
    (control stubIdx stC2 101).2.2.length = 100 ∧
    (control stubIdx stC2 101).2.1 = some 99 ∧
    set_transient_spec {} 0 1 (1/4) (1/2) 100 = some stC2spec ∧
    (control stubIdx stC2spec 101).2.2 = [1/4, 1/2, 3/4, 1] ∧
    (control stubIdx stC2spec 101).2.1 = some 3 := by
  have hrun : ∀ (st : LoopState), st.n_it_max = 0 → 0 < st.dt → 0 < st.tEnd →
      ¬ ((101 : ℚ) * st.dt + tEps < st.tEnd) →
      ∃ m : ℕ, m ≤ 101 ∧
        control stubIdx st 101 =
          ({ st with it := 0, t := (m : ℚ) * st.dt },
           if m = 0 then none else some (stubIdx (m - 1)),
           (List.range m).map (fun i : ℕ => ((i : ℚ) + 1) * st.dt)) ∧
        (∀ i : ℕ, i < m → (i : ℚ) * st.dt + tEps < st.tEnd) ∧
        ¬ ((m : ℚ) * st.dt + tEps < st.tEnd) := by
    intro st hmax hdt htEnd hfuel
    have htr : isTransient st = true := by
      simp only [isTransient, decide_eq_true_eq]
      exact htEnd
    have hnl : isNonlinear st = false := by
      simp [isNonlinear, hmax]
    obtain ⟨m, hmle, heq, hlo, hhi⟩ :=
      transientGo_linear_ind stubIdx st hnl 101 0 0 none []
        (by intro hcon; exact hfuel (by push_cast at hcon ⊢; linarith)) hdt
    refine ⟨m, hmle, ?_, ?_, ?_⟩
    · simp only [control, htr, hnl, heq]
      norm_num [Prod.mk.injEq]
    · intro i hi
      have := hlo i hi
      simpa using this
    · intro hcon
      exact hhi (by simpa using hcon)
  have hstC2 : stC2.n_it_max = 0 ∧ stC2.dt = 1/100 ∧ stC2.tEnd = 1 := by
    refine ⟨rfl, rfl, rfl⟩
  obtain ⟨m1, hm1le, heq1, hlo1, hhi1⟩ := hrun stC2 rfl (by norm_num [stC2])
    (by norm_num [stC2]) (by norm_num [stC2, tEps])
  have hm1 : m1 = 100 := by
    by_contra hne
    rcases Nat.lt_or_ge m1 100 with hlt | hge
    · refine hhi1 ?_
      have hle : (m1 : ℚ) ≤ 99 := by exact_mod_cast Nat.le_of_lt_succ hlt
      show (m1 : ℚ) * stC2.dt + tEps < stC2.tEnd
      have h2 : stC2.dt = 1/100 := rfl
      have h3 : stC2.tEnd = 1 := rfl
      rw [h2, h3, tEps]
      nlinarith
    · have h100 : (100 : ℕ) < m1 := by omega
      have := hlo1 100 h100
      rw [show stC2.dt = 1/100 from rfl, show stC2.tEnd = 1 from rfl, tEps]
        at this
      norm_num at this
  subst hm1
  obtain ⟨m2, hm2le, heq2, hlo2, hhi2⟩ := hrun stC2spec rfl
    (by norm_num [stC2spec]) (by norm_num [stC2spec])
    (by norm_num [stC2spec, tEps])
  have hm2 : m2 = 4 := by
    by_contra hne
    rcases Nat.lt_or_ge m2 4 with hlt | hge
    · refine hhi2 ?_
      have hle : (m2 : ℚ) ≤ 3 := by exact_mod_cast Nat.le_of_lt_succ hlt
      show (m2 : ℚ) * stC2spec.dt + tEps < stC2spec.tEnd
      rw [show stC2spec.dt = 1/4 from rfl, show stC2spec.tEnd = 1 from rfl,
        tEps]
      nlinarith
    · have h4 : (4 : ℕ) < m2 := by omega
      have := hlo2 4 h4
      rw [show stC2spec.dt = 1/4 from rfl, show stC2spec.tEnd = 1 from rfl,
        tEps] at this
      norm_num at this
  subst hm2
  refine ⟨by norm_num [set_transient, clip, stC2],
    rfl, ?_, ?_, ?_,
    by norm_num [set_transient_spec, clip, stC2spec], ?_, ?_⟩
  · rw [heq1]
    simp only [show stC2.dt = 1/100 from rfl]
  · rw [heq1]
    simp
  · rw [heq1]
    norm_num [stubIdx]
  · rw [heq2]
    simp only [show stC2spec.dt = 1/4 from rfl]
    norm_num [List.range_succ]
  · rw [heq2]
    norm_num [stubIdx]

/-! ## The `Base` object tree (base.py): graph model

Objects are identified by natural numbers (Python object identity); the
heap is a total map `State : ℕ → Node`.  `Base.__eq__` is not overridden,
so Python `==`/`in` on objects is identity comparison: id equality here.
A slot value `none` in a `followers` list is Python `None` (a hole). -/

/-- The `Base` fields the claims are about (`Base.__init__`,
base.py lines 165-203).  `data = none` models a deleted `_data` attribute
(reading it raises `AttributeError`); `data = some b` models a present
attribute with truthiness `b` (the initial `_data = None` is
`some false`). -/
structure Node where
  ident     : String
  leader    : Option ℕ
  followers : List (Option ℕ)
  data      : Option Bool
  gui       : Bool
  batch     : Bool
  silent    : Bool
deriving DecidableEq, Repr

/-- A freshly constructed `Base` object. -/
def initNode (ident : String) : Node :=
  { ident := ident, leader := none, followers := [], data := some false,
    gui := false, batch := false, silent := false }

/-- The heap: a record for every object id. -/
def State : Type := ℕ → Node

/-- Point update of the heap. -/
def upd (s : State) (i : ℕ) (nd : Node) : State :=
  fun j => if j = i then nd else s j

lemma upd_apply (s : State) (i : ℕ) (nd : Node) (j : ℕ) :
    upd s i nd j = if j = i then nd else s j := rfl

lemma upd_self (s : State) (i : ℕ) (nd : Node) : upd s i nd i = nd := by
  simp [upd_apply]

lemma upd_other (s : State) (i : ℕ) (nd : Node) (j : ℕ) (h : j ≠ i) :
    upd s i nd j = s j := by
  simp [upd_apply, h]

/-- `Base.setFollower` for a single node argument (base.py lines 549-572):
`other._leader = self`, then append `other` to `self._followers` unless
already present (identity membership). -/
def setFollower (s : State) (l o : ℕ) : State :=
  let s1 := upd s o { s o with leader := some l }
  if some o ∈ (s1 l).followers then s1
  else upd s1 l { s1 l with followers := (s1 l).followers ++ [some o] }

/-- `Base.setCooperator` for a single node argument (base.py lines
582-591): append unless present; `other._leader` untouched. -/
def setCooperator (s : State) (l o : ℕ) : State :=
  if some o ∈ (s l).followers then s
  else upd s l { s l with followers := (s l).followers ++ [some o] }

/-- `Base.isFollower` (base.py lines 574-580):
`other._leader == self and other in self._followers`. -/
def isFollower (s : State) (l o : ℕ) : Prop :=
  (s o).leader = some l ∧ some o ∈ (s l).followers

instance (s : State) (l o : ℕ) : Decidable (isFollower s l o) := by
  unfold isFollower; infer_instance

/-- `Base.isCooperator` (base.py lines 593-599):
`other._leader != self and other in self._followers`. -/
def isCooperator (s : State) (l o : ℕ) : Prop :=
  (s o).leader ≠ some l ∧ some o ∈ (s l).followers

instance (s : State) (l o : ℕ) : Decidable (isCooperator s l o) := by
  unfold isCooperator; infer_instance

/-- The `for x in self._followers: x._field = value` loop shared by the
`gui` and `batch` setters: assign through `setF` on every listed
follower, in order — with no `None` guard, so a hole makes the loop
raise `AttributeError` (`none`). -/
def propagateFlag (setF : Node → Node) (slots : List (Option ℕ)) (st : State) :
    Option State :=
  slots.foldl
    (fun acc slot =>
      match acc, slot with
      | none, _ => none
      | some _, none => none
      | some stt, some j => some (upd stt j (setF (stt j))))
    (some st)

/-- `Base.gui` setter (base.py lines 377-384), with the `tkinter` module
available (its absence would force the value to `False`): sets `_gui` on
the node, then assigns `x._gui = value` for every entry of
`_followers`. -/
def setGui (s : State) (i : ℕ) (v : Bool) : Option State :=
  let s1 := upd s i { s i with gui := v }
  propagateFlag (fun nd => { nd with gui := v }) (s1 i).followers s1

/-- `Base.batch` setter (base.py lines 390-394): same shape as `gui`
without the `tkinter` check. -/
def setBatch (s : State) (i : ℕ) (v : Bool) : Option State :=
  let s1 := upd s i { s i with batch := v }
  propagateFlag (fun nd => { nd with batch := v }) (s1 i).followers s1

/-- `Base.silent` setter (base.py lines 400-402): `self._silent = value`
— and nothing else: no propagation to followers. -/
def setSilent (s : State) (i : ℕ) (v : Bool) : State :=
  upd s i { s i with silent := v }

/-- The `for index, val in enumerate(self.followers): if id(val) ==
id(node): i = index; break` search of `_destructFollower` (base.py lines
311-315): the first index holding exactly `x` (`none` = `i == -1`). -/
def firstIdx (x : Option ℕ) : List (Option ℕ) → Option ℕ
  | [] => none
  | a :: rest => if a = x then some 0 else (firstIdx x rest).map (· + 1)

/-- `Base._destructFollower` (base.py lines 298-322), `self = ldr`,
`node = node`: find the first index `i` of `node` in `self._followers`
(identity comparison, so a `None` hole never matches); if absent, or if
`node` is a cooperator of `self`, do nothing (`return False`); otherwise
`del node._data` (raises `AttributeError`, i.e. `none`, when the
attribute is already deleted) and put a hole at slot `i`. -/
def destructFollower (s : State) (ldr node : ℕ) : Option State :=
  match firstIdx (some node) (s ldr).followers with
  | none => some s
  | some i =>
    if (s node).leader ≠ some ldr ∧ some node ∈ (s ldr).followers then some s
    else
      match (s node).data with
      | none => none
      | some _ =>
        let s1 := upd s node { s node with data := none }
        some (upd s1 ldr { s1 ldr with followers := (s1 ldr).followers.set i none })

/-- One pass of the `for`-loop of `Base.destructDownwards` (base.py lines
289-293): visit slots `i, i+1, ..., i+rem-1` of `fromN`'s follower list
(the range was fixed when the loop started), re-reading each slot from
the current state; recurse — through `recur` — into every non-hole entry
whose `leader` is identically `fromN`. -/
def destructLoop (recur : State → ℕ → Option State) (fromN : ℕ) :
    Option State → ℕ → ℕ → Option State
  | os, _, 0 => os
  | os, i, rem + 1 =>
    let os' :=
      match os with
      | none => none
      | some st =>
        match (st fromN).followers[i]? with
        | some (some node) =>
          if (st node).leader = some fromN then recur st node else some st
        | _ => some st
    destructLoop recur fromN os' (i + 1) rem

/-- `Base.destructDownwards` (base.py lines 278-296): recursively destroy
every true follower below `fromN` (bottom-up), then detach `fromN` from
its own leader via `_destructFollower`.  The recursion is fuel-indexed;
any fuel exceeding the tree depth gives the Python behaviour. -/
def destructDW (fuel : ℕ) (s : State) (fromN : ℕ) : Option State :=
  match fuel with
  | 0 => some s
  | f + 1 =>
    match destructLoop (fun st node => destructDW f st node) fromN (some s) 0
        ((s fromN).followers.length) with
    | none => none
    | some s1 =>
      match (s1 fromN).leader with
      | some l => destructFollower s1 l fromN
      | none => some s1

/-- `Base.destruct` (= `destroy()`, base.py lines 263-276):
`if self._data: del self._data` (reading a deleted attribute raises),
root-only `logging.shutdown()` (no object state), then
`destructDownwards(fromNode=self)`. -/
def destruct (fuel : ℕ) (s : State) (i : ℕ) : Option State :=
  match (s i).data with
  | none => none
  | some b =>
    let s1 := if b then upd s i { s i with data := none } else s
    destructDW fuel s1 i

/-- `Base.root` (base.py lines 324-333): `p = self; while p.leader:
p = p.leader; return p`, fuel-indexed (`none` = did not reach a root
within `fuel` leader steps). -/
def rootF (s : State) : ℕ → ℕ → Option ℕ
  | 0, i => match (s i).leader with
    | none => some i
    | some _ => none
  | fuel + 1, i => match (s i).leader with
    | none => some i
    | some j => rootF s fuel j

/-- The `for`-loop of `Base.getFollowerDownwards` (base.py lines
541-547): try each non-hole slot in order with the recursive search
`recur`, returning the first hit; holes are skipped (`if node:`). -/
def searchKids (recur : ℕ → Option ℕ) (s : State) (fromN : ℕ) :
    ℕ → ℕ → Option ℕ
  | _, 0 => none
  | i, rem + 1 =>
    match (s fromN).followers[i]? with
    | some (some node) =>
      match recur node with
      | some found => some found
      | none => searchKids recur s fromN (i + 1) rem
    | _ => searchKids recur s fromN (i + 1) rem

/-- `Base.getFollowerDownwards` (base.py lines 512-547): `self` stays the
original caller through the recursion (the code recurses via
`self.getFollowerDownwards(identifier, node)`); first the caller's own
identifier is compared, then `fromNode`'s (the code checks it twice,
lines 533 and 539 — identical tests, modelled once); with `fromNode`
absent the search restarts from `self.root()`.  Fuel-indexed. -/
def getFD (s : State) (selfN : ℕ) (target : String) :
    ℕ → Option ℕ → Option ℕ
  | 0, _ => none
  | fuel + 1, fromN? =>
    if (s selfN).ident = target then some selfN
    else
      match fromN? with
      | some f =>
        if (s f).ident = target then some f
        else searchKids (fun node => getFD s selfN target fuel (some node))
          s f 0 ((s f).followers.length)
      | none =>
        match rootF s (fuel + 1) selfN with
        | none => none
        | some r =>
          if (s r).ident = target then some r
          else searchKids (fun node => getFD s selfN target fuel (some node))
            s r 0 ((s r).followers.length)

/-- States reachable from `s` through the relationship-management
operations `setFollower` / `setCooperator`. -/
inductive Reach (s : State) : State → Prop
  | refl : Reach s s
  | follower (t : State) (l o : ℕ) : Reach s t → Reach s (setFollower t l o)
  | cooperator (t : State) (l o : ℕ) : Reach s t → Reach s (setCooperator t l o)

/-- Spec invariant 1 (§3): a node whose `leader` is set appears in that
leader's `followers` sequence. -/
def LeaderInv (s : State) : Prop :=
  ∀ i j : ℕ, (s i).leader = some j → some i ∈ (s j).followers

/-- True-follower descendants of `r` (including `r` itself): the nodes
`destructDownwards` visits — reached along follower slots whose `leader`
back-reference is the visiting node. -/
inductive TrueDesc (s : State) (r : ℕ) : ℕ → Prop
  | refl : TrueDesc s r r
  | step (j k : ℕ) : TrueDesc s r j → some k ∈ (s j).followers →
      (s k).leader = some j → TrueDesc s r k

/-- Downward reachability along arbitrary (follower or cooperator)
non-hole slots — the edges the identifier search walks. -/
inductive SlotReach (s : State) (r : ℕ) : ℕ → Prop
  | refl : SlotReach s r r
  | step (j k : ℕ) : SlotReach s r j → some k ∈ (s j).followers →
      SlotReach s r k

/-! ## The recursive phase traversals `pre` / `task` / `post`

These are additionally embedded over an inductive tree whose follower
lists carry `Option` slots, mirroring the recursive call structure of
the Python methods (each node holds its sub-objects).  The
cooperator-annotation `write` calls inside the loops are logging only
and need no leader back-references. -/

/-- Per-node fields the phase methods touch.  `hasData` is
`data is not None`; `loadOk` / `saveOk` are the return values of the
`load()` / `save()` hooks a subclass supplies (the `Base` defaults are
`True`). -/
structure PNode where
  ident    : String
  hasData  : Bool
  loadOk   : Bool
  saveOk   : Bool
  silent   : Bool
  preDone  : Bool
  taskDone : Bool
  postDone : Bool
deriving DecidableEq, Repr

/-- An execution (sub)tree: a node and its follower slots; `none` is a
hole left by destruction. -/
inductive PTree where
  | mk : PNode → List (Option PTree) → PTree

/-- The root's node record. -/
def PTree.node : PTree → PNode
  | .mk nd _ => nd

/-- The root's follower slots. -/
def PTree.kids : PTree → List (Option PTree)
  | .mk _ kids => kids

mutual
/-- `Base.pre` (base.py lines 813-836): `ok = True`; `for x in
self.followers: x.pre(**kwargs)` — no `None` guard, so a hole raises
`AttributeError` (`none`); then `if self.data is None: ok = self.load()`;
`self._preDone = True`; `return ok`.  Returns the updated tree, this
node's own boolean result, and the identifiers whose `load` hook ran, in
call order. -/
def preT : PTree → Option (PTree × Bool × List String)
  | .mk nd kids =>
    match preKidsT kids with
    | none => none
    | some (kids', loads) =>
      some (.mk { nd with preDone := true } kids',
        (if nd.hasData then true else nd.loadOk),
        loads ++ (if nd.hasData then [] else [nd.ident]))

/-- The follower loop of `Base.pre`: each child's boolean result is
discarded; an exception (a hole, at any depth) propagates. -/
def preKidsT : List (Option PTree) → Option (List (Option PTree) × List String)
  | [] => some ([], [])
  | none :: _ => none
  | some t :: rest =>
    match preT t with
    | none => none
    | some (t', _, loads) =>
      match preKidsT rest with
      | none => none
      | some (rest', loads2) => some (some t' :: rest', loads ++ loads2)
end

mutual
/-- `Base.task` (base.py lines 838-857): recurse over followers (no
`None` guard), mark `_taskDone`, `return 0.0`. -/
def taskT : PTree → Option (PTree × ℚ)
  | .mk nd kids =>
    match taskKidsT kids with
    | none => none
    | some kids' => some (.mk { nd with taskDone := true } kids', 0)

/-- The follower loop of `Base.task`. -/
def taskKidsT : List (Option PTree) → Option (List (Option PTree))
  | [] => some []
  | none :: _ => none
  | some t :: rest =>
    match taskT t with
    | none => none
    | some (t', _) =>
      match taskKidsT rest with
      | none => none
      | some rest' => some (some t' :: rest')
end

mutual
/-- `Base.post` (base.py lines 859-881): recurse over followers (no
`None` guard), then `if self.data is None: ok = self.save()`; mark
`_postDone`.  Returns the updated tree, this node's own boolean result,
and the identifiers whose `save` hook ran. -/
def postT : PTree → Option (PTree × Bool × List String)
  | .mk nd kids =>
    match postKidsT kids with
    | none => none
    | some (kids', saves) =>
      some (.mk { nd with postDone := true } kids',
        (if nd.hasData then true else nd.saveOk),
        saves ++ (if nd.hasData then [] else [nd.ident]))

/-- The follower loop of `Base.post`. -/
def postKidsT : List (Option PTree) → Option (List (Option PTree) × List String)
  | [] => some ([], [])
  | none :: _ => none
  | some t :: rest =>
    match postT t with
    | none => none
    | some (t', _, saves) =>
      match postKidsT rest with
      | none => none
      | some (rest', saves2) => some (some t' :: rest', saves ++ saves2)
end

mutual
/-- No hole anywhere in the tree. -/
def noHole : PTree → Bool
  | .mk _ kids => noHoleKids kids

/-- No hole anywhere in a slot list. -/
def noHoleKids : List (Option PTree) → Bool
  | [] => true
  | none :: _ => false
  | some t :: rest => noHole t && noHoleKids rest
end

/-- `Base.control` (base.py lines 883-911): root-only timing banners
(logging), then `res = self.task(**kwargs)`, returned as the residuum. -/
def controlT (t : PTree) : Option (PTree × ℚ) := taskT t

/-- The lifecycle phases `Base.__call__` can invoke, for recording which
of them ran. -/
inductive Phase where
  | prologP
  | preP
  | controlP
  | postP
  | epilogP
deriving DecidableEq, Repr

/-- Truthiness of `parallel.rank()` (parallel.py lines 85-96): `None`
when MPI is unavailable (falsy — treated as primary), otherwise the MPI
rank (truthy iff non-zero, i.e. non-primary). -/
def rankTruthy : Option ℕ → Bool
  | none => false
  | some r => r ≠ 0

/-- `self.silent = kwargs.get('silent', self.silent)` on the called node
(base.py line 224): with no `silent` keyword the value re-assigned is the
getter's result, unchanged on a primary rank. -/
def setRootSilent : PTree → Option Bool → PTree
  | .mk nd kids, some v => .mk { nd with silent := v } kids
  | t, none => t

/-- `Base.__call__` (base.py lines 205-233): if `parallel.rank()` is
truthy (non-primary MPI rank) return `-1.0` at once — before the
`silent` option, `prolog`, `pre`, `control`, `post` and `epilog`.
Otherwise run them in order (`prolog` and `epilog` are banner/logging
bookkeeping with no object state; the phase list records what ran).
Returns the residuum, the resulting tree, and the phases invoked. -/
def callT (rank : Option ℕ) (silentArg : Option Bool) (t : PTree) :
    Option (ℚ × PTree × List Phase) :=
  if rankTruthy rank then some (-1, t, [])
  else
    let t0 := setRootSilent t silentArg
    match preT t0 with
    | none => none
    | some (t1, _, _) =>
      match controlT t1 with
      | none => none
      | some (t2, res) =>
        match postT t2 with
        | none => none
        | some (t3, _, _) =>
          some (res, t3,
            [Phase.prologP, Phase.preP, Phase.controlP, Phase.postP,
             Phase.epilogP])

/-! ## Claim C3: rank skip -/

/-- Claim C3 — rank skip: for every node (tree) and every option set,
when the parallel-dispatch collaborator reports a truthy (non-primary)
rank, `__call__` returns `-1.0` immediately, the tree is returned
entirely unchanged, and no phase — `prolog`, `pre`, `control`/`task`,
`post` or `epilog` — is invoked. -/
theorem claim_C3_rank_skip (rank : Option ℕ) (silentArg : Option Bool)
    (t : PTree) (h : rankTruthy rank = true) :
    callT rank silentArg t = some (-1, t, []) := by
  simp [callT, h]

/-- A plain `Base`-like node for concrete trees. -/
def pn0 : PNode :=
  { ident := "Base", hasData := false, loadOk := true, saveOk := true,
    silent := false, preDone := false, taskDone := false, postDone := false }

/-- Witness for claim C3: MPI rank 1 skips execution of a concrete tree. -/
theorem claim_C3_witness :
    callT (some 1) none (PTree.mk pn0 []) =
      some (-1, PTree.mk pn0 [], []) :=
  claim_C3_rank_skip (some 1) none (PTree.mk pn0 []) rfl

/-! ## Claim C4: traversal of holes -/

mutual
/-- `pre` succeeds exactly on hole-free trees. -/
theorem preT_isSome_eq : ∀ t : PTree, (preT t).isSome = noHole t
  | .mk nd kids => by
    have h := preKidsT_isSome_eq kids
    simp only [preT, noHole]
    cases hk : preKidsT kids with
    | none => rw [hk] at h; simpa using h.symm
    | some pr => rw [hk] at h; simpa using h.symm

/-- The `pre` follower loop succeeds exactly on hole-free slot lists. -/
theorem preKidsT_isSome_eq :
    ∀ l : List (Option PTree), (preKidsT l).isSome = noHoleKids l
  | [] => by simp [preKidsT, noHoleKids]
  | none :: rest => by simp [preKidsT, noHoleKids]
  | some t :: rest => by
    have h1 := preT_isSome_eq t
    have h2 := preKidsT_isSome_eq rest
    simp only [preKidsT, noHoleKids]
    cases ht : preT t with
    | none => rw [ht] at h1; simp [← h1]
    | some p =>
      rw [ht] at h1
      cases hr : preKidsT rest with
      | none => rw [hr] at h2; simp [← h1, ← h2]
      | some q => rw [hr] at h2; simp [← h1, ← h2]
end

mutual
/-- `task` succeeds exactly on hole-free trees. -/
theorem taskT_isSome_eq : ∀ t : PTree, (taskT t).isSome = noHole t
  | .mk nd kids => by
    have h := taskKidsT_isSome_eq kids
    simp only [taskT, noHole]
    cases hk : taskKidsT kids with
    | none => rw [hk] at h; simpa using h.symm
    | some pr => rw [hk] at h; simpa using h.symm

/-- The `task` follower loop succeeds exactly on hole-free slot lists. -/
theorem taskKidsT_isSome_eq :
    ∀ l : List (Option PTree), (taskKidsT l).isSome = noHoleKids l
  | [] => by simp [taskKidsT, noHoleKids]
  | none :: rest => by simp [taskKidsT, noHoleKids]
  | some t :: rest => by
    have h1 := taskT_isSome_eq t
    have h2 := taskKidsT_isSome_eq rest
    simp only [taskKidsT, noHoleKids]
    cases ht : taskT t with
    | none => rw [ht] at h1; simp [← h1]
    | some p =>
      rw [ht] at h1
      cases hr : taskKidsT rest with
      | none => rw [hr] at h2; simp [← h1, ← h2]
      | some q => rw [hr] at h2; simp [← h1, ← h2]
end

mutual
/-- `post` succeeds exactly on hole-free trees. -/
theorem postT_isSome_eq : ∀ t : PTree, (postT t).isSome = noHole t
  | .mk nd kids => by
    have h := postKidsT_isSome_eq kids
    simp only [postT, noHole]
    cases hk : postKidsT kids with
    | none => rw [hk] at h; simpa using h.symm
    | some pr => rw [hk] at h; simpa using h.symm

/-- The `post` follower loop succeeds exactly on hole-free slot lists. -/
theorem postKidsT_isSome_eq :
    ∀ l : List (Option PTree), (postKidsT l).isSome = noHoleKids l
  | [] => by simp [postKidsT, noHoleKids]
  | none :: rest => by simp [postKidsT, noHoleKids]
  | some t :: rest => by
    have h1 := postT_isSome_eq t
    have h2 := postKidsT_isSome_eq rest
    simp only [postKidsT, noHoleKids]
    cases ht : postT t with
    | none => rw [ht] at h1; simp [← h1]
    | some p =>
      rw [ht] at h1
      cases hr : postKidsT rest with
      | none => rw [hr] at h2; simp [← h1, ← h2]
      | some q => rw [hr] at h2; simp [← h1, ← h2]
end

/-- A one-node tree whose followers list holds a single hole. -/
def tHole : PTree := PTree.mk pn0 [none]

/-- Counterexample to claim C4: on the tree whose followers list contains
a null slot, none of the phase traversals completes — each dereferences
the hole (`x.pre(**kwargs)` with `x = None` raises `AttributeError`);
they do not "complete normally and skip the hole". -/
theorem claim_C4_counterexample :
    preT tHole = none ∧ taskT tHole = none ∧ postT tHole = none :=
  ⟨rfl, rfl, rfl⟩

/-- Claim C4 as amended: the phase traversals `pre`, `task` and `post`
complete exactly on trees without null slots; a hole anywhere in the
traversed tree is dereferenced and aborts the traversal (only the
search / destruction / string-rendering traversals guard holes with
`if node:`). -/
theorem claim_C4_amended_phases_fail_on_holes :
    (∀ t : PTree, (preT t).isSome = noHole t) ∧
    (∀ t : PTree, (taskT t).isSome = noHole t) ∧
    (∀ t : PTree, (postT t).isSome = noHole t) :=
  ⟨preT_isSome_eq, taskT_isSome_eq, postT_isSome_eq⟩

/-! ## Claim C9: pre-phase error policy -/

/-- Claim C9 — pre-phase error policy: whenever `pre` completes on a
node, the boolean it returns is `true` if the node's own `data` is set
and the node's own `load` result otherwise — it does not depend on any
follower's result; and the node's own `load` hook runs (appears in the
trace, in final position) exactly when its own `data` is unset. -/
theorem claim_C9_pre_error_policy (nd : PNode) (kids : List (Option PTree))
    (t' : PTree) (ok : Bool) (loads : List String)
    (h : preT (.mk nd kids) = some (t', ok, loads)) :
    ok = (if nd.hasData then true else nd.loadOk) ∧
    ∃ pref, loads = pref ++ (if nd.hasData then [] else [nd.ident]) := by
  simp only [preT] at h
  cases hk : preKidsT kids with
  | none => rw [hk] at h; exact absurd h (by simp)
  | some pr =>
    obtain ⟨kids', lds⟩ := pr
    rw [hk] at h
    simp only [Option.some.injEq, Prod.mk.injEq] at h
    exact ⟨h.2.1.symm, lds, h.2.2.symm⟩

/-- A follower whose `load` hook fails. -/
def pnBadLoad : PNode :=
  { ident := "f", hasData := false, loadOk := false, saveOk := true,
    silent := false, preDone := false, taskDone := false, postDone := false }

/-- A root with unset data and a succeeding `load` hook. -/
def pnRootLoad : PNode :=
  { ident := "root", hasData := false, loadOk := true, saveOk := true,
    silent := false, preDone := false, taskDone := false, postDone := false }

/-- Witness for claim C9: a root whose follower's `load` fails still
returns `true` (its own `load` result); both loads ran, the node's own
one last. -/
theorem claim_C9_witness :
    true = (if pnRootLoad.hasData then true else pnRootLoad.loadOk) ∧
    ∃ pref, ["f", "root"] = pref ++
      (if pnRootLoad.hasData then [] else [pnRootLoad.ident]) :=
  claim_C9_pre_error_policy pnRootLoad [some (.mk pnBadLoad [])]
    (.mk { pnRootLoad with preDone := true }
      [some (.mk { pnBadLoad with preDone := true } [])])
    true ["f", "root"] rfl

/-! ## Claim C5: execution-mode flag propagation -/

/-- The follower loop of the `gui`/`batch` setters assigns the flag on
every listed follower and touches nothing else. -/
lemma propagateFlag_spec (setF : Node → Node) (p : Node → Bool) (v : Bool)
    (hv : ∀ nd, p (setF nd) = v) :
    ∀ (slots : List (Option ℕ)) (st : State), none ∉ slots →
    ∃ s', propagateFlag setF slots st = some s' ∧
      (∀ j, some j ∈ slots → p (s' j) = v) ∧
      (∀ j, some j ∉ slots → s' j = st j) := by
  intro slots
  induction slots with
  | nil =>
    intro st _
    exact ⟨st, rfl, by simp, fun j _ => rfl⟩
  | cons slot rest ih =>
    intro st hnh
    match slot with
    | none => exact absurd (List.mem_cons_self none rest) hnh
    | some k =>
      have hrest : none ∉ rest := fun h => hnh (List.mem_cons_of_mem _ h)
      obtain ⟨s', heq, hmem, hfr⟩ := ih (upd st k (setF (st k))) hrest
      refine ⟨s', ?_, ?_, ?_⟩
      · simpa [propagateFlag, List.foldl_cons] using heq
      · intro j hj
        rcases List.mem_cons.mp hj with hj | hj
        · have hjk : j = k := by simpa using hj
          subst hjk
          by_cases hjr : some j ∈ rest
          · exact hmem j hjr
          · rw [hfr j hjr]
            simp [upd, hv]
        · exact hmem j hj
      · intro j hj
        have hjk : j ≠ k := fun h => hj (h ▸ List.mem_cons_self _ _)
        have hjr : some j ∉ rest := fun h => hj (List.mem_cons_of_mem _ h)
        rw [hfr j hjr]
        simp [upd, hjk]

/-- The state `{0 ↦ leader "L" with follower slot 1, _ ↦ "F"}`. -/
def exC5 : State := fun i =>
  if i = 0 then { initNode "L" with followers := [some 1] } else initNode "F"

/-- Counterexample to claim C5: node 1 is a current follower of node 0,
yet assigning `silent` on node 0 leaves node 1's `silent` flag `false` —
the `silent` setter does not propagate (only `gui` and `batch` do). -/
theorem claim_C5_counterexample :
    some 1 ∈ (exC5 0).followers ∧
    ((setSilent exC5 0 true) 0).silent = true ∧
    ((setSilent exC5 0 true) 1).silent = false := by
  refine ⟨by decide, by decide, by decide⟩

/-- Claim C5 as amended: assigning `gui` or `batch` on a node sets the
value on the node and immediately on every current (non-hole) follower
slot; assigning `silent` sets it on the node only, every other node
unchanged; and attaching a follower afterwards never changes any node's
`gui`/`batch`/`silent`, so followers attached later do not receive the
value retroactively. -/
theorem claim_C5_amended_flag_propagation :
    (∀ (s : State) (l : ℕ) (v : Bool), none ∉ (s l).followers →
      ∃ s', setGui s l v = some s' ∧ (s' l).gui = v ∧
        (∀ j, some j ∈ (s l).followers → (s' j).gui = v)) ∧
    (∀ (s : State) (l : ℕ) (v : Bool), none ∉ (s l).followers →
      ∃ s', setBatch s l v = some s' ∧ (s' l).batch = v ∧
        (∀ j, some j ∈ (s l).followers → (s' j).batch = v)) ∧
    (∀ (s : State) (l : ℕ) (v : Bool),
      ((setSilent s l v) l).silent = v ∧
      (∀ j, j ≠ l → (setSilent s l v) j = s j)) ∧
    (∀ (s : State) (l o j : ℕ),
      ((setFollower s l o) j).gui = (s j).gui ∧
      ((setFollower s l o) j).batch = (s j).batch ∧
      ((setFollower s l o) j).silent = (s j).silent) := by
  refine ⟨?_, ?_, ?_, ?_⟩
  · intro s l v hnh
    have hfl : ((upd s l { s l with gui := v }) l).followers =
        (s l).followers := by simp [upd]
    obtain ⟨s', heq, hmem, hfr⟩ :=
      propagateFlag_spec (fun nd => { nd with gui := v }) (fun nd => nd.gui) v
        (fun _ => rfl) ((upd s l { s l with gui := v }) l).followers
        (upd s l { s l with gui := v }) (by rw [hfl]; exact hnh)
    refine ⟨s', by simpa [setGui] using heq, ?_, ?_⟩
    · by_cases hl : some l ∈ (s l).followers
      · exact hmem l (by rw [hfl]; exact hl)
      · rw [hfr l (by rw [hfl]; exact hl)]
        simp [upd]
    · intro j hj
      exact hmem j (by rw [hfl]; exact hj)
  · intro s l v hnh
    have hfl : ((upd s l { s l with batch := v }) l).followers =
        (s l).followers := by simp [upd]
    obtain ⟨s', heq, hmem, hfr⟩ :=
      propagateFlag_spec (fun nd => { nd with batch := v }) (fun nd => nd.batch)
        v (fun _ => rfl) ((upd s l { s l with batch := v }) l).followers
        (upd s l { s l with batch := v }) (by rw [hfl]; exact hnh)
    refine ⟨s', by simpa [setBatch] using heq, ?_, ?_⟩
    · by_cases hl : some l ∈ (s l).followers
      · exact hmem l (by rw [hfl]; exact hl)
      · rw [hfr l (by rw [hfl]; exact hl)]
        simp [upd]
    · intro j hj
      exact hmem j (by rw [hfl]; exact hj)
  · intro s l v
    exact ⟨by simp [setSilent, upd_self],
      fun j hj => by simp [setSilent, upd_apply, hj]⟩
  · intro s l o j
    simp only [setFollower, upd_apply]
    split_ifs <;>
      (rcases eq_or_ne j o with rfl | hjo <;>
        rcases eq_or_ne j l with rfl | hjl <;> simp_all [upd_apply])

/-- Witness for claim C5's amended statement: `gui` propagation on the
concrete two-node state. -/
theorem claim_C5_witness :
    ∃ s', setGui exC5 0 true = some s' ∧ (s' 0).gui = true ∧
      (∀ j, some j ∈ (exC5 0).followers → (s' j).gui = true) :=
  claim_C5_amended_flag_propagation.1 exC5 0 true (by decide)

/-! ## Claim C10: unique authoritative leader -/

/-- After `l.setFollower(o)`, `o`'s leader is `l`. -/
lemma setFollower_leader (s : State) (l o : ℕ) :
    ((setFollower s l o) o).leader = some l := by
  simp only [setFollower]
  by_cases hmem : some o ∈
      ((upd s o { s o with leader := some l }) l).followers
  · rw [if_pos hmem, upd_self]
  · rw [if_neg hmem]
    by_cases hol : o = l
    · subst hol
      rw [upd_self]
      simp [upd_self]
    · rw [upd_other _ _ _ _ hol, upd_self]

/-- After `l.setFollower(o)`, `o` is listed in `l`'s followers. -/
lemma setFollower_mem (s : State) (l o : ℕ) :
    some o ∈ ((setFollower s l o) l).followers := by
  simp only [setFollower]
  by_cases hmem : some o ∈
      ((upd s o { s o with leader := some l }) l).followers
  · rw [if_pos hmem]
    exact hmem
  · rw [if_neg hmem, upd_self]
    simp

/-- `setFollower` changes no follower list except `l`'s. -/
lemma setFollower_followers_frame (s : State) (l o j : ℕ) (hj : j ≠ l) :
    ((setFollower s l o) j).followers = (s j).followers := by
  have hbase : ((upd s o { s o with leader := some l }) j).followers =
      (s j).followers := by
    by_cases hjo : j = o
    · subst hjo
      rw [upd_self]
    · rw [upd_other _ _ _ _ hjo]
  simp only [setFollower]
  by_cases hmem : some o ∈
      ((upd s o { s o with leader := some l }) l).followers
  · rw [if_pos hmem]
    exact hbase
  · rw [if_neg hmem, upd_other _ _ _ _ hj]
    exact hbase

/-- `setFollower` changes no leader except `o`'s. -/
lemma setFollower_leader_frame (s : State) (l o j : ℕ) (hj : j ≠ o) :
    ((setFollower s l o) j).leader = (s j).leader := by
  simp only [setFollower]
  by_cases hmem : some o ∈
      ((upd s o { s o with leader := some l }) l).followers
  · rw [if_pos hmem, upd_other _ _ _ _ hj]
  · rw [if_neg hmem]
    by_cases hjl : j = l
    · rw [hjl, upd_self]
      show ((upd s o { s o with leader := some l }) l).leader = (s l).leader
      rw [upd_other _ _ _ _ (hjl ▸ hj)]
    · rw [upd_other _ _ _ _ hjl, upd_other _ _ _ _ hj]

/-- Claim C10 — unique authoritative leader: in any state at most one
node `L` satisfies `isFollower(L, n)` (the leader back-reference is
single-valued); and after `L1.setFollower(n)` then `L2.setFollower(n)`
(`L1 ≠ L2`), `n`'s leader is `L2` while `n` is still listed in `L1`'s
followers, so `L1.isFollower(n)` is false and `L1.isCooperator(n)` is
true. -/
theorem claim_C10_unique_leader :
    (∀ (s : State) (n l1 l2 : ℕ),
      isFollower s l1 n → isFollower s l2 n → l1 = l2) ∧
    (∀ (s : State) (l1 l2 n : ℕ), l1 ≠ l2 →
      ((setFollower (setFollower s l1 n) l2 n) n).leader = some l2 ∧
      some n ∈ ((setFollower (setFollower s l1 n) l2 n) l1).followers ∧
      ¬ isFollower (setFollower (setFollower s l1 n) l2 n) l1 n ∧
      isCooperator (setFollower (setFollower s l1 n) l2 n) l1 n) := by
  constructor
  · intro s n l1 l2 h1 h2
    have := h1.1.symm.trans h2.1
    simpa using this
  · intro s l1 l2 n hne
    have hld : ((setFollower (setFollower s l1 n) l2 n) n).leader = some l2 :=
      setFollower_leader _ l2 n
    have hmem : some n ∈
        ((setFollower (setFollower s l1 n) l2 n) l1).followers := by
      rw [setFollower_followers_frame _ l2 n l1 hne]
      exact setFollower_mem s l1 n
    refine ⟨hld, hmem, ?_, ?_⟩
    · intro hf
      have hcon := hld.symm.trans hf.1
      have hl21 : l2 = l1 := by simpa using hcon
      exact hne hl21.symm
    · show ((setFollower (setFollower s l1 n) l2 n) n).leader ≠ some l1 ∧
          some n ∈ ((setFollower (setFollower s l1 n) l2 n) l1).followers
      exact ⟨by rw [hld]; simp [hne.symm], hmem⟩

/-! ## Claim C6: tree integrity invariant -/

/-- `setFollower` never removes a membership from any follower list. -/
lemma setFollower_mem_mono (s : State) (l o j : ℕ) (x : Option ℕ)
    (hx : x ∈ (s j).followers) : x ∈ ((setFollower s l o) j).followers := by
  have hbase : ((upd s o { s o with leader := some l }) j).followers =
      (s j).followers := by
    by_cases hjo : j = o
    · subst hjo
      rw [upd_self]
    · rw [upd_other _ _ _ _ hjo]
  simp only [setFollower]
  by_cases hmem : some o ∈
      ((upd s o { s o with leader := some l }) l).followers
  · rw [if_pos hmem, hbase]
    exact hx
  · rw [if_neg hmem]
    by_cases hjl : j = l
    · subst hjl
      rw [upd_self]
      exact List.mem_append_left _ (hbase.symm ▸ hx)
    · rw [upd_other _ _ _ _ hjl, hbase]
      exact hx

/-- `setCooperator` changes no leader reference at all. -/
lemma setCooperator_leader_eq (s : State) (l o j : ℕ) :
    ((setCooperator s l o) j).leader = (s j).leader := by
  simp only [setCooperator]
  by_cases hmem : some o ∈ (s l).followers
  · rw [if_pos hmem]
  · rw [if_neg hmem]
    by_cases hjl : j = l
    · rw [hjl, upd_self]
    · rw [upd_other _ _ _ _ hjl]

/-- After `l.setCooperator(o)`, `o` is listed in `l`'s followers. -/
lemma setCooperator_mem (s : State) (l o : ℕ) :
    some o ∈ ((setCooperator s l o) l).followers := by
  simp only [setCooperator]
  by_cases hmem : some o ∈ (s l).followers
  · rw [if_pos hmem]
    exact hmem
  · rw [if_neg hmem, upd_self]
    simp

/-- `setCooperator` never removes a membership from any follower list. -/
lemma setCooperator_mem_mono (s : State) (l o j : ℕ) (x : Option ℕ)
    (hx : x ∈ (s j).followers) : x ∈ ((setCooperator s l o) j).followers := by
  simp only [setCooperator]
  by_cases hmem : some o ∈ (s l).followers
  · rw [if_pos hmem]
    exact hx
  · rw [if_neg hmem]
    by_cases hjl : j = l
    · rw [hjl, upd_self]
      exact List.mem_append_left _ (hjl ▸ hx)
    · rw [upd_other _ _ _ _ hjl]
      exact hx

/-- `setFollower` preserves the leader-in-followers invariant. -/
lemma LeaderInv_setFollower (s : State) (l o : ℕ) (h : LeaderInv s) :
    LeaderInv (setFollower s l o) := by
  intro i j hij
  by_cases hio : i = o
  · subst hio
    rw [setFollower_leader] at hij
    obtain rfl : l = j := by simpa using hij
    exact setFollower_mem s l i
  · rw [setFollower_leader_frame _ _ _ _ hio] at hij
    exact setFollower_mem_mono s l o j _ (h i j hij)

/-- `setCooperator` preserves the leader-in-followers invariant. -/
lemma LeaderInv_setCooperator (s : State) (l o : ℕ) (h : LeaderInv s) :
    LeaderInv (setCooperator s l o) := by
  intro i j hij
  rw [setCooperator_leader_eq] at hij
  exact setCooperator_mem_mono s l o j _ (h i j hij)

/-- The two-node state after `(node 0).setFollower(node 1)`. -/
def exC6 : State := setFollower (fun _ => initNode "") 0 1

/-- Counterexample to claim C6: destruction does not preserve the
invariant — destroying node 1 (a true follower of node 0) nulls its slot
in node 0's followers but leaves node 1's `leader` reference pointing at
node 0, so the destroyed node's leader no longer lists it. -/
theorem claim_C6_counterexample :
    (destructDW 1 exC6 1).isSome = true ∧
    (((destructDW 1 exC6 1).getD exC6) 1).leader = some 0 ∧
    some 1 ∉ (((destructDW 1 exC6 1).getD exC6) 0).followers := by
  refine ⟨by decide, by decide, by decide⟩

/-- Claim C6 as amended: the leader-in-followers invariant holds in every
state reachable through the relationship-management operations
`setFollower` / `setCooperator` (destruction can break it for the
destroyed node, whose `leader` is left dangling); after
`L.setFollower(F)`, `F`'s leader is `L` and `L.isFollower(F)` holds;
after `L.setCooperator(C)` with `C`'s authoritative leader not `L`,
`C`'s leader is unchanged and `L.isCooperator(C)` holds. -/
theorem claim_C6_amended_tree_integrity :
    (∀ s t : State, LeaderInv s → Reach s t → LeaderInv t) ∧
    (∀ (s : State) (l o : ℕ),
      ((setFollower s l o) o).leader = some l ∧
      isFollower (setFollower s l o) l o) ∧
    (∀ (s : State) (l o : ℕ), (s o).leader ≠ some l →
      ((setCooperator s l o) o).leader = (s o).leader ∧
      isCooperator (setCooperator s l o) l o) := by
  refine ⟨?_, ?_, ?_⟩
  · intro s t hs hr
    induction hr with
    | refl => exact hs
    | follower u l o _ ih => exact LeaderInv_setFollower u l o ih
    | cooperator u l o _ ih => exact LeaderInv_setCooperator u l o ih
  · intro s l o
    exact ⟨setFollower_leader s l o,
      setFollower_leader s l o, setFollower_mem s l o⟩
  · intro s l o hne
    refine ⟨setCooperator_leader_eq s l o o, ?_⟩
    show ((setCooperator s l o) o).leader ≠ some l ∧
      some o ∈ ((setCooperator s l o) l).followers
    rw [setCooperator_leader_eq]
    exact ⟨hne, setCooperator_mem s l o⟩

/-- Witness for claim C6's amended statement: invariant preservation
along a concrete attach chain, and the two attach clauses at concrete
nodes. -/
theorem claim_C6_witness :
    LeaderInv exC6 ∧
    (((setFollower (fun _ => initNode "") 0 1) 1).leader = some 0 ∧
      isFollower (setFollower (fun _ => initNode "") 0 1) 0 1) ∧
    (((setCooperator (fun _ => initNode "") 0 1) 1).leader =
        ((fun _ => initNode "") 1).leader ∧
      isCooperator (setCooperator (fun _ => initNode "") 0 1) 0 1) :=
  ⟨claim_C6_amended_tree_integrity.1 (fun _ => initNode "") exC6
      (fun i j h => absurd h (by simp [initNode]))
      (Reach.follower _ 0 1 Reach.refl),
   claim_C6_amended_tree_integrity.2.1 (fun _ => initNode "") 0 1,
   claim_C6_amended_tree_integrity.2.2 (fun _ => initNode "") 0 1
     (by decide)⟩

/-! ## Claim C8: root reachability and identifier search -/

lemma SlotReach_trans (s : State) (a b c : ℕ) (h1 : SlotReach s a b)
    (h2 : SlotReach s b c) : SlotReach s a c := by
  induction h2 with
  | refl => exact h1
  | step j k _ hedge ih => exact SlotReach.step j k ih hedge

/-- A slot path decomposes at its first edge. -/
lemma SlotReach_first_step (s : State) (f n : ℕ) (h : SlotReach s f n) :
    f = n ∨ ∃ c, some c ∈ (s f).followers ∧ SlotReach s c n := by
  induction h with
  | refl => exact Or.inl rfl
  | step j k _ hedge ih =>
    rcases ih with rfl | ⟨c, hc, hcj⟩
    · exact Or.inr ⟨k, hedge, SlotReach.refl⟩
    · exact Or.inr ⟨c, hc, SlotReach.step j k hcj hedge⟩

/-- `root()` terminates: with a rank function strictly decreasing along
slot edges and bounded by `B`, and the leader-in-followers invariant,
`rootF` with fuel at least `B - g i` reaches a leaderless node that has
`i` in its true-follower (and slot) descendants. -/
lemma rootF_spec (s : State) (g : ℕ → ℕ) (B : ℕ)
    (hg : ∀ i j, some j ∈ (s i).followers → g j < g i)
    (hB : ∀ i, g i < B) (hInv : LeaderInv s) :
    ∀ (k i : ℕ), B - g i ≤ k →
    ∃ r, rootF s k i = some r ∧ (s r).leader = none ∧ TrueDesc s r i ∧
      SlotReach s r i := by
  intro k
  induction k with
  | zero =>
    intro i hk
    have := hB i
    omega
  | succ k ih =>
    intro i hk
    cases hl : (s i).leader with
    | none =>
      exact ⟨i, by simp [rootF, hl], hl, TrueDesc.refl, SlotReach.refl⟩
    | some j =>
      have hmem : some i ∈ (s j).followers := hInv i j hl
      have hgj : g i < g j := hg j i hmem
      obtain ⟨r, hr, hrl, hrd, hrs⟩ := ih j (by have := hB j; omega)
      exact ⟨r, by simp [rootF, hl, hr], hrl,
        TrueDesc.step j i hrd hmem hl, SlotReach.step j i hrs hmem⟩

/-- The root is the only leaderless node among its true descendants. -/
lemma TrueDesc_leaderless_unique (s : State) (r : ℕ) :
    ∀ m, TrueDesc s r m → (s m).leader = none → m = r := by
  intro m hm hml
  cases hm with
  | refl => rfl
  | step j k _ _ hl => rw [hml] at hl; cases hl

/-- `root()` from any true descendant of a leaderless `r` reaches `r`. -/
lemma rootF_member (s : State) (g : ℕ → ℕ) (B : ℕ)
    (hg : ∀ i j, some j ∈ (s i).followers → g j < g i)
    (hB : ∀ i, g i < B) (r : ℕ)
    (hr : (s r).leader = none) :
    ∀ m, TrueDesc s r m → ∀ k, B - g m ≤ k → rootF s k m = some r := by
  intro m hm
  induction hm with
  | refl =>
    intro k _
    cases k <;> simp [rootF, hr]
  | step j i hj hmem hl ih =>
    intro k hk
    obtain ⟨k', rfl⟩ : ∃ k', k = k' + 1 := ⟨k - 1, by have := hB i; omega⟩
    rw [show rootF s (k' + 1) i = rootF s k' j from by simp [rootF, hl]]
    exact ih k' (by have := hg j i hmem; have := hB j; omega)

/-- Whatever the follower loop of the search returns came from a slot in
the scanned range, through the recursive search. -/
lemma searchKids_sound (recur : ℕ → Option ℕ) (s : State) (f : ℕ) :
    ∀ (rem i m : ℕ), searchKids recur s f i rem = some m →
    ∃ node idx, i ≤ idx ∧ idx < i + rem ∧
      (s f).followers[idx]? = some (some node) ∧ recur node = some m := by
  intro rem
  induction rem with
  | zero =>
    intro i m h
    simp [searchKids] at h
  | succ rem ih =>
    intro i m h
    rw [searchKids] at h
    split at h
    · rename_i node hslot
      split at h
      · rename_i found hrec
        obtain rfl : found = m := by simpa using h
        exact ⟨node, i, le_refl _, by omega, hslot, hrec⟩
      · obtain ⟨node', idx, h1, h2, h3, h4⟩ := ih (i + 1) m h
        exact ⟨node', idx, by omega, by omega, h3, h4⟩
    · obtain ⟨node', idx, h1, h2, h3, h4⟩ := ih (i + 1) m h
      exact ⟨node', idx, by omega, by omega, h3, h4⟩

/-- If some scanned slot holds a node on which the recursive search
succeeds, the follower loop succeeds. -/
lemma searchKids_some (recur : ℕ → Option ℕ) (s : State) (f : ℕ) :
    ∀ (rem i idx c : ℕ), i ≤ idx → idx < i + rem →
    (s f).followers[idx]? = some (some c) → recur c ≠ none →
    searchKids recur s f i rem ≠ none := by
  intro rem
  induction rem with
  | zero =>
    intro i idx c h1 h2
    omega
  | succ rem ih =>
    intro i idx c h1 h2 hslot hrec
    rw [searchKids]
    split
    · rename_i node hsloti
      split
      · simp
      · rename_i hr
        by_cases hidx : idx = i
        · subst hidx
          rw [hslot] at hsloti
          obtain rfl : c = node := by simpa using hsloti
          exact absurd hr hrec
        · exact ih (i + 1) idx c (by omega) (by omega) hslot hrec
    · rename_i hfall
      have hne : idx ≠ i := by
        intro heqi
        subst heqi
        exact hfall c hslot
      exact ih (i + 1) idx c (by omega) (by omega) hslot hrec

/-- Soundness of the identifier search (from a given start node): any
hit has the searched identifier and is the caller or slot-reachable from
the start node. -/
lemma getFD_sound (s : State) (selfN : ℕ) (target : String) :
    ∀ (fuel f m : ℕ), getFD s selfN target fuel (some f) = some m →
    (s m).ident = target ∧ (m = selfN ∨ SlotReach s f m) := by
  intro fuel
  induction fuel with
  | zero =>
    intro f m h
    simp [getFD] at h
  | succ fuel ih =>
    intro f m h
    simp only [getFD] at h
    by_cases hself : (s selfN).ident = target
    · rw [if_pos hself] at h
      obtain rfl : selfN = m := by simpa using h
      exact ⟨hself, Or.inl rfl⟩
    · rw [if_neg hself] at h
      by_cases hf : (s f).ident = target
      · rw [if_pos hf] at h
        obtain rfl : f = m := by simpa using h
        exact ⟨hf, Or.inr SlotReach.refl⟩
      · rw [if_neg hf] at h
        obtain ⟨node, idx, _, _, hslot, hrec⟩ :=
          searchKids_sound _ s f _ 0 m h
        obtain ⟨hident, hor⟩ := ih node m hrec
        have hmem : some node ∈ (s f).followers := by
          have := List.getElem?_eq_some.mp hslot
          obtain ⟨hlt, heq⟩ := this
          exact heq ▸ List.getElem_mem hlt
        refine ⟨hident, ?_⟩
        rcases hor with rfl | hreach
        · exact Or.inl rfl
        · exact Or.inr (SlotReach_trans s f node m
            (SlotReach.step f node SlotReach.refl hmem) hreach)

/-- Completeness of the identifier search: with enough fuel relative to
the slot-rank of the start node, a slot-reachable node's identifier is
found. -/
lemma getFD_complete (s : State) (selfN : ℕ) (g : ℕ → ℕ)
    (hg : ∀ i j, some j ∈ (s i).followers → g j < g i) (N : ℕ) :
    ∀ (fuel f : ℕ), SlotReach s f N → g f < fuel →
    getFD s selfN ((s N).ident) fuel (some f) ≠ none := by
  intro fuel
  induction fuel with
  | zero =>
    intro f _ hfuel
    omega
  | succ fuel ih =>
    intro f hreach hfuel
    simp only [getFD]
    by_cases hself : (s selfN).ident = (s N).ident
    · rw [if_pos hself]
      simp
    · rw [if_neg hself]
      by_cases hf : (s f).ident = (s N).ident
      · rw [if_pos hf]
        simp
      · rw [if_neg hf]
        rcases SlotReach_first_step s f N hreach with rfl | ⟨c, hc, hcN⟩
        · exact absurd rfl hf
        · obtain ⟨idx, hslot⟩ := List.mem_iff_getElem?.mp hc
          have hidxlt : idx < (s f).followers.length :=
            (List.getElem?_eq_some.mp hslot).1
          exact searchKids_some _ s f _ 0 idx c (Nat.zero_le _) (by omega)
            hslot (ih c hcN (by have := hg f c hc; omega))

/-- Claim C8 — root reachability and search: in an acyclic tree (a slot
rank `g` bounded by `B` certifies acyclicity) satisfying the
leader-in-followers invariant, following `leader` links from any node
`N` terminates (fuel `B` suffices) at a node `R` with no leader; `R` is
the unique leaderless node among its true descendants, and `root()` from
every true descendant reaches the same `R`; and when identifiers are
unique in `R`'s tree, the identifier search started at `R` with `N`'s
identifier returns `N`. -/
theorem claim_C8_root_and_search (s : State) (g : ℕ → ℕ) (B N : ℕ)
    (hg : ∀ i j, some j ∈ (s i).followers → g j < g i)
    (hB : ∀ i, g i < B)
    (hInv : LeaderInv s) :
    ∃ R, rootF s B N = some R ∧ (s R).leader = none ∧ TrueDesc s R N ∧
      (∀ M, TrueDesc s R M → (s M).leader = none → M = R) ∧
      (∀ M, TrueDesc s R M → rootF s B M = some R) ∧
      ((∀ a b, SlotReach s R a → SlotReach s R b →
          (s a).ident = (s b).ident → a = b) →
        getFD s R ((s N).ident) (B + 1) none = some N) := by
  obtain ⟨R, hroot, hRl, hRd, hRs⟩ :=
    rootF_spec s g B hg hB hInv B N (by omega)
  refine ⟨R, hroot, hRl, hRd, TrueDesc_leaderless_unique s R,
    fun M hM => rootF_member s g B hg hB R hRl M hM B (by omega), ?_⟩
  intro huniq
  have hrootR : rootF s (B + 1) R = some R := by
    cases B <;> simp [rootF, hRl]
  by_cases hsr : (s R).ident = (s N).ident
  · have hRN : R = N := huniq R N SlotReach.refl hRs hsr
    subst hRN
    simp [getFD, hsr]
  · have hRneN : R ≠ N := fun h => hsr (h ▸ rfl)
    have hcall : getFD s R ((s N).ident) (B + 1) none =
        searchKids (fun node => getFD s R ((s N).ident) B (some node))
          s R 0 ((s R).followers.length) := by
      simp only [getFD, if_neg hsr, hrootR]
    rw [hcall]
    rcases SlotReach_first_step s R N hRs with rfl | ⟨c, hc, hcN⟩
    · exact absurd rfl hRneN
    · have hne : searchKids (fun node => getFD s R ((s N).ident) B
          (some node)) s R 0 ((s R).followers.length) ≠ none := by
        obtain ⟨idx, hslot⟩ := List.mem_iff_getElem?.mp hc
        have hidxlt : idx < (s R).followers.length :=
          (List.getElem?_eq_some.mp hslot).1
        exact searchKids_some _ s R _ 0 idx c (Nat.zero_le _) (by omega)
          hslot (getFD_complete s R g hg N B c hcN
            (by have := hg R c hc; have := hB R; omega))
      cases hres : searchKids (fun node => getFD s R ((s N).ident) B
          (some node)) s R 0 ((s R).followers.length) with
      | none => exact absurd hres hne
      | some m =>
        obtain ⟨node, idx, _, _, hslot, hrec⟩ :=
          searchKids_sound _ s R _ 0 m hres
        obtain ⟨hident, hor⟩ := getFD_sound s R ((s N).ident) B node m hrec
        have hmemnode : some node ∈ (s R).followers := by
          obtain ⟨hlt, heq⟩ := List.getElem?_eq_some.mp hslot
          exact heq ▸ List.getElem_mem hlt
        have hreachm : SlotReach s R m := by
          rcases hor with rfl | hreach
          · exact SlotReach.refl
          · exact SlotReach_trans s R node m
              (SlotReach.step R node SlotReach.refl hmemnode) hreach
        have : m = N := huniq m N hreachm hRs hident
        rw [this]

/-- A concrete three-node chain `"r" (0) → "a" (1) → "b" (2)`. -/
def exC8 : State := fun i =>
  if i = 0 then { initNode "r" with followers := [some 1] }
  else if i = 1 then
    { initNode "a" with leader := some 0, followers := [some 2] }
  else if i = 2 then { initNode "b" with leader := some 1 }
  else initNode "x"

lemma exC8_rank : ∀ i j, some j ∈ (exC8 i).followers →
    (fun i => 3 - i) j < (fun i => 3 - i) i := by
  intro i j hmem
  simp only [exC8, initNode] at hmem
  split_ifs at hmem with h0 h1 h2
  · subst h0
    simp at hmem
    subst hmem
    norm_num
  · subst h1
    simp at hmem
    subst hmem
    norm_num
  · simp at hmem
  · simp at hmem

lemma exC8_bound : ∀ i, (fun i => 3 - i) i < 4 := by
  intro i
  simp
  omega

lemma exC8_inv : LeaderInv exC8 := by
  intro i j h
  by_cases h0 : i = 0
  · subst h0
    simp [exC8, initNode] at h
  · by_cases h1 : i = 1
    · subst h1
      rw [show (exC8 1).leader = some 0 from rfl] at h
      injection h with h
      subst h
      decide
    · by_cases h2 : i = 2
      · subst h2
        rw [show (exC8 2).leader = some 1 from rfl] at h
        injection h with h
        subst h
        decide
      · rw [show (exC8 i).leader = none from by
          simp [exC8, initNode, h0, h1, h2]] at h
        cases h

lemma exC8_reach : ∀ x, SlotReach exC8 0 x → x = 0 ∨ x = 1 ∨ x = 2 := by
  intro x h
  induction h with
  | refl => exact Or.inl rfl
  | step j k _ hmem ih =>
    rcases ih with rfl | rfl | rfl
    · have hk : k = 1 := by simpa [exC8, initNode] using hmem
      exact Or.inr (Or.inl hk)
    · have hk : k = 2 := by simpa [exC8, initNode] using hmem
      exact Or.inr (Or.inr hk)
    · simp [exC8, initNode] at hmem

lemma exC8_uniq : ∀ a b, SlotReach exC8 0 a → SlotReach exC8 0 b →
    (exC8 a).ident = (exC8 b).ident → a = b := by
  intro a b ha hb hid
  rcases exC8_reach a ha with rfl | rfl | rfl <;>
    rcases exC8_reach b hb with rfl | rfl | rfl <;>
      simp_all [exC8, initNode]

/-- Witness for claim C8: on the concrete chain, `root()` from node 2
reaches node 0, and the identifier search from the root with `"b"`
returns node 2. -/
theorem claim_C8_witness :
    rootF exC8 4 2 = some 0 ∧ getFD exC8 0 "b" 5 none = some 2 := by
  obtain ⟨R, hroot, _, _, _, _, hsearch⟩ :=
    claim_C8_root_and_search exC8 (fun i => 3 - i) 4 2 exC8_rank exC8_bound
      exC8_inv
  have h0 : rootF exC8 4 2 = some 0 := by decide
  obtain rfl : R = 0 := by
    have h2 := h0.symm.trans hroot
    have h3 : 0 = R := by simpa using h2
    exact h3.symm
  have hsea := hsearch exC8_uniq
  have hident : (exC8 2).ident = "b" := rfl
  rw [hident] at hsea
  exact ⟨h0, hsea⟩

/-! ## Claim C7: destruction preserves cooperators and leaves holes -/

lemma firstIdx_sound (x : Option ℕ) :
    ∀ (l : List (Option ℕ)) (i : ℕ), firstIdx x l = some i →
    l[i]? = some x := by
  intro l
  induction l with
  | nil => intro i h; simp [firstIdx] at h
  | cons a rest ih =>
    intro i h
    by_cases ha : a = x
    · rw [firstIdx, if_pos ha] at h
      obtain rfl : 0 = i := by simpa using h
      simpa using ha
    · rw [firstIdx, if_neg ha] at h
      cases hr : firstIdx x rest with
      | none => rw [hr] at h; simp at h
      | some i' =>
        rw [hr] at h
        obtain rfl : i' + 1 = i := by simpa using h
        simpa using ih i' hr

lemma firstIdx_isSome_of_mem (x : Option ℕ) :
    ∀ (l : List (Option ℕ)), x ∈ l → (firstIdx x l).isSome := by
  intro l
  induction l with
  | nil => intro h; simp at h
  | cons a rest ih =>
    intro h
    by_cases ha : a = x
    · rw [firstIdx, if_pos ha]; rfl
    · rw [firstIdx, if_neg ha]
      have hx : x ∈ rest := by
        rcases List.mem_cons.mp h with h' | h'
        · exact absurd h'.symm ha
        · exact h'
      cases hr : firstIdx x rest with
      | none => rw [hr] at ih; exact absurd (ih hx) (by simp)
      | some i' => simp

/-- When `x` sits at a unique index, that index is what the scan finds. -/
lemma firstIdx_unique (x : Option ℕ) :
    ∀ (l : List (Option ℕ)) (i : ℕ), l[i]? = some x →
    (∀ q, l[q]? = some x → q = i) → firstIdx x l = some i := by
  intro l
  induction l with
  | nil => intro i h; simp at h
  | cons a rest ih =>
    intro i h huniq
    by_cases ha : a = x
    · have h0 : (a :: rest)[0]? = some x := by simpa using ha
      have := huniq 0 h0
      rw [firstIdx, if_pos ha, this]
    · obtain ⟨i', rfl⟩ : ∃ i', i = i' + 1 := by
        cases i with
        | zero => exact absurd (by simpa using h) ha
        | succ i' => exact ⟨i', rfl⟩
      have hrest : rest[i']? = some x := by simpa using h
      have huniq' : ∀ q, rest[q]? = some x → q = i' := by
        intro q hq
        have := huniq (q + 1) (by simpa using hq)
        omega
      rw [firstIdx, if_neg ha, ih i' hrest huniq']
      rfl

/-- What a destruction pass may change: never a `leader`, an `ident` or
a list length; a follower slot only ever to a hole. -/
def Evolved (a b : State) : Prop :=
  ∀ m : ℕ, (b m).leader = (a m).leader ∧ (b m).ident = (a m).ident ∧
    (b m).followers.length = (a m).followers.length ∧
    ∀ k : ℕ, (b m).followers[k]? = (a m).followers[k]? ∨
      (b m).followers[k]? = some none

lemma Evolved.refl (a : State) : Evolved a a :=
  fun _ => ⟨rfl, rfl, rfl, fun _ => Or.inl rfl⟩

lemma Evolved.trans {a b c : State} (h1 : Evolved a b) (h2 : Evolved b c) :
    Evolved a c := by
  intro m
  obtain ⟨l1, i1, n1, s1⟩ := h1 m
  obtain ⟨l2, i2, n2, s2⟩ := h2 m
  refine ⟨l2.trans l1, i2.trans i1, n2.trans n1, fun k => ?_⟩
  rcases s2 k with h | h
  · rw [h]; exact s1 k
  · exact Or.inr h

lemma destructFollower_evolved (u : State) (l x : ℕ) (u' : State)
    (h : destructFollower u l x = some u') : Evolved u u' := by
  unfold destructFollower at h
  split at h
  · obtain rfl : u = u' := by simpa using h
    exact Evolved.refl u
  · rename_i i hidx
    split at h
    · obtain rfl : u = u' := by simpa using h
      exact Evolved.refl u
    · split at h
      · cases h
      · rename_i b hdat
        simp only [Option.some.injEq] at h
        subst h
        intro m
        by_cases hml : m = l
        · subst hml
          rw [upd_self]
          by_cases hmx : m = x
          · subst hmx
            simp only [upd_self]
            refine ⟨by trivial, by trivial, by simp, fun k => ?_⟩
            rw [List.getElem?_set]
            split_ifs with h1 h2
            · exact Or.inr rfl
            · subst h1
              rw [List.getElem?_eq_none (by simpa using h2)]
              exact Or.inl rfl
            · exact Or.inl rfl
          · rw [upd_other _ _ _ _ hmx]
            refine ⟨by trivial, by trivial, by simp, fun k => ?_⟩
            rw [List.getElem?_set]
            split_ifs with h1 h2
            · exact Or.inr rfl
            · subst h1
              rw [List.getElem?_eq_none (by simpa using h2)]
              exact Or.inl rfl
            · exact Or.inl rfl
        · rw [upd_other _ _ _ _ hml]
          by_cases hmx : m = x
          · subst hmx
            rw [upd_self]
            exact ⟨rfl, rfl, rfl, fun _ => Or.inl rfl⟩
          · rw [upd_other _ _ _ _ hmx]
            exact ⟨rfl, rfl, rfl, fun _ => Or.inl rfl⟩

lemma destructLoop_none (recur : State → ℕ → Option State) (fromN : ℕ) :
    ∀ rem i, destructLoop recur fromN none i rem = none := by
  intro rem
  induction rem with
  | zero => intro i; rfl
  | succ rem ih =>
    intro i
    rw [destructLoop]
    exact ih (i + 1)

lemma destructLoop_evolved (recur : State → ℕ → Option State) (fromN : ℕ)
    (hrec : ∀ u x u', recur u x = some u' → Evolved u u') :
    ∀ (rem i : ℕ) (u u' : State),
    destructLoop recur fromN (some u) i rem = some u' → Evolved u u' := by
  intro rem
  induction rem with
  | zero =>
    intro i u u' h
    obtain rfl : u = u' := by simpa [destructLoop] using h
    exact Evolved.refl u
  | succ rem ih =>
    intro i u u' h
    rw [destructLoop] at h
    split at h
    · rename_i node hslot
      split at h
      · rename_i hl
        cases hr : recur u node with
        | none =>
          rw [hr] at h
          rw [destructLoop_none] at h
          cases h
        | some u2 =>
          rw [hr] at h
          exact (hrec u node u2 hr).trans (ih (i + 1) u2 u' h)
      · exact ih (i + 1) u u' h
    · exact ih (i + 1) u u' h

lemma destructDW_evolved :
    ∀ (fuel : ℕ) (u : State) (X : ℕ) (u' : State),
    destructDW fuel u X = some u' → Evolved u u' := by
  intro fuel
  induction fuel with
  | zero =>
    intro u X u' h
    obtain rfl : u = u' := by simpa [destructDW] using h
    exact Evolved.refl u
  | succ f ih =>
    intro u X u' h
    rw [destructDW] at h
    split at h
    · cases h
    · rename_i u1 hloop
      have hev1 : Evolved u u1 :=
        destructLoop_evolved _ X (fun a x a' hh => ih a x a' hh) _ 0 u u1 hloop
      split at h
      · rename_i l hl
        exact hev1.trans (destructFollower_evolved u1 l X u' h)
      · obtain rfl : u1 = u' := by simpa using h
        exact hev1

lemma TrueDesc_compose (s : State) (L a b : ℕ) (h1 : TrueDesc s L a)
    (h2 : TrueDesc s a b) : TrueDesc s L b := by
  induction h2 with
  | refl => exact h1
  | step j k _ hmem hl ih => exact TrueDesc.step j k ih hmem hl

lemma TrueDesc_inv (s : State) (a j : ℕ) (h : TrueDesc s a j) :
    j = a ∨ ∃ p, TrueDesc s a p ∧ some j ∈ (s p).followers ∧
      (s j).leader = some p := by
  cases h with
  | refl => exact Or.inl rfl
  | step p k hp hmem hl => exact Or.inr ⟨p, hp, hmem, hl⟩

/-- Along true-follower chains inside `L`'s tree the rank strictly
decreases. -/
lemma TrueDesc_h_lt (s : State) (L : ℕ) (h : ℕ → ℕ)
    (hdec : ∀ j k, TrueDesc s L j → some k ∈ (s j).followers →
      (s k).leader = some j → h k < h j)
    (a : ℕ) (ha : TrueDesc s L a) :
    ∀ b, TrueDesc s a b → b ≠ a → h b < h a := by
  intro b hb
  induction hb with
  | refl => intro hne; exact absurd rfl hne
  | step k j hk hmem hl ih =>
    intro _
    have hjk : h j < h k := hdec k j (TrueDesc_compose s L a k ha hk) hmem hl
    by_cases hka : k = a
    · subst hka; exact hjk
    · exact hjk.trans (ih hka)

/-- A proper true descendant of `X` sits inside the subtree of one of
`X`'s true children. -/
lemma TrueDesc_decompose (s : State) (X j : ℕ) (hj : TrueDesc s X j)
    (hne : j ≠ X) :
    ∃ c, some c ∈ (s X).followers ∧ (s c).leader = some X ∧
      TrueDesc s c j := by
  induction hj with
  | refl => exact absurd rfl hne
  | step k j' hk hmem hl ih =>
    by_cases hkX : k = X
    · subst hkX
      exact ⟨j', hmem, hl, TrueDesc.refl⟩
    · obtain ⟨c, hc1, hc2, hc3⟩ := ih hkX
      exact ⟨c, hc1, hc2, TrueDesc.step k j' hc3 hmem hl⟩

/-- No true child's subtree reaches back to the parent. -/
lemma TrueDesc_child_not_back (s : State) (L : ℕ) (h : ℕ → ℕ)
    (hdec : ∀ j k, TrueDesc s L j → some k ∈ (s j).followers →
      (s k).leader = some j → h k < h j)
    (X c : ℕ) (hX : TrueDesc s L X)
    (hmem : some c ∈ (s X).followers) (hl : (s c).leader = some X) :
    ¬ TrueDesc s c X := by
  intro hback
  have hcX : h c < h X := hdec X c hX hmem hl
  by_cases hXc : X = c
  · subst hXc; omega
  · have hLc : TrueDesc s L c :=
      TrueDesc_compose s L X c hX (TrueDesc.step X c TrueDesc.refl hmem hl)
    have := TrueDesc_h_lt s L h hdec c hLc X hback hXc
    omega

/-- Subtrees of distinct true children are disjoint. -/
lemma TrueDesc_disjoint (s : State) (L : ℕ) (h : ℕ → ℕ)
    (hdec : ∀ j k, TrueDesc s L j → some k ∈ (s j).followers →
      (s k).leader = some j → h k < h j)
    (X c1 c2 : ℕ) (hX : TrueDesc s L X)
    (hm1 : some c1 ∈ (s X).followers) (hl1 : (s c1).leader = some X)
    (hm2 : some c2 ∈ (s X).followers) (hl2 : (s c2).leader = some X)
    (hne : c1 ≠ c2) :
    ∀ j, TrueDesc s c1 j → ¬ TrueDesc s c2 j := by
  intro j h1
  induction h1 with
  | refl =>
    intro h2
    rcases TrueDesc_inv s c2 c1 h2 with heq | ⟨p, hp, _, hlp⟩
    · exact hne heq
    · rw [hl1] at hlp
      obtain rfl : X = p := by simpa using hlp
      exact TrueDesc_child_not_back s L h hdec X c2 hX hm2 hl2 hp
  | step k j' hk hmem hl ih =>
    intro h2
    rcases TrueDesc_inv s c2 j' h2 with heq | ⟨p, hp, _, hlp⟩
    · subst heq
      rw [hl] at hl2
      have hkX : k = X := by simpa using hl2
      exact TrueDesc_child_not_back s L h hdec X c1 hX hm1 hl1 (hkX ▸ hk)
    · rw [hl] at hlp
      obtain rfl : k = p := by simpa using hlp
      exact ih hp

/-- Evaluation of `_destructFollower` in the destructive case: `node`
found at `i`, not a cooperator, data present. -/
lemma destructFollower_eq (u : State) (l x i : ℕ)
    (hidx : firstIdx (some x) (u l).followers = some i)
    (hl : (u x).leader = some l) (b : Bool) (hdat : (u x).data = some b) :
    destructFollower u l x =
      some (upd (upd u x { u x with data := none }) l
        { (upd u x { u x with data := none }) l with
          followers :=
            ((upd u x { u x with data := none }) l).followers.set i none }) := by
  simp only [destructFollower, hidx]
  rw [if_neg (by simp [hl])]
  simp only [hdat]

/-- Field-level effects of a destructive `_destructFollower` call. -/
lemma destructFollower_effects (u : State) (l x i : ℕ)
    (hidx : firstIdx (some x) (u l).followers = some i)
    (hl : (u x).leader = some l) (b : Bool) (hdat : (u x).data = some b)
    (hne : l ≠ x) :
    ∃ u', destructFollower u l x = some u' ∧
      u' x = { u x with data := none } ∧
      u' l = { u l with followers := (u l).followers.set i none } ∧
      ∀ m, m ≠ x → m ≠ l → u' m = u m := by
  refine ⟨_, destructFollower_eq u l x i hidx hl b hdat, ?_, ?_, ?_⟩
  · rw [upd_other _ _ _ _ (Ne.symm hne), upd_self]
  · rw [upd_self, upd_other _ _ _ _ hne]
  · intro m hmx hml
    rw [upd_other _ _ _ _ hml, upd_other _ _ _ _ hmx]

/-- A destroyed subtree: every true descendant of `c` has its data
released and its true-child slots replaced by holes, all other slots
untouched. -/
def Dest (s : State) (c : ℕ) (v : State) : Prop :=
  ∀ j : ℕ, TrueDesc s c j → (v j).data = none ∧
    (∀ (p cc : ℕ), (s j).followers[p]? = some (some cc) →
      (s cc).leader = some j → (v j).followers[p]? = some none) ∧
    (∀ p : ℕ, (∀ cc : ℕ, (s j).followers[p]? = some (some cc) →
      (s cc).leader ≠ some j) → (v j).followers[p]? = (s j).followers[p]?)

/-- One loop round that recurses into a true child. -/
lemma destructLoop_step_child (recur : State → ℕ → Option State)
    (X i rem : ℕ) (u : State) (c : ℕ)
    (hslot : (u X).followers[i]? = some (some c))
    (hl : (u c).leader = some X) :
    destructLoop recur X (some u) i (rem + 1) =
      destructLoop recur X (recur u c) (i + 1) rem := by
  rw [destructLoop]
  simp only [hslot, hl, if_pos]

/-- One loop round that skips the slot (hole, out of range, or not a
true child). -/
lemma destructLoop_step_skip (recur : State → ℕ → Option State)
    (X i rem : ℕ) (u : State)
    (hskip : ∀ c, (u X).followers[i]? = some (some c) →
      (u c).leader ≠ some X) :
    destructLoop recur X (some u) i (rem + 1) =
      destructLoop recur X (some u) (i + 1) rem := by
  rw [destructLoop]
  cases hsv : (u X).followers[i]? with
  | none => simp only [hsv]
  | some v =>
    cases v with
    | none => simp only [hsv]
    | some c =>
      simp only [hsv]
      rw [if_neg (hskip c hsv)]

/-- Main induction for `destructDownwards`: called on a true descendant
`X` of `L` (a rank function `h` certifies acyclicity, `hdata` that every
node with a leader still owns its data, `hcount` that a child occupies
only one slot of its leader), from any entry state `t` that is an
evolution of `s` agreeing with `s` on `X`'s subtree and still holding
`X` in its leader's list, the call succeeds and: leaves every node
outside the subtree other than `X`'s own leader untouched, releases the
data of every proper true descendant (and of `X` itself exactly when
`X` has a leader), replaces exactly the true-child slots of subtree
nodes by holes, and detaches `X` from its leader's list by a hole at
the index the scan finds. -/
lemma destructDW_main (s : State) (L : ℕ) (h : ℕ → ℕ)
    (hdec : ∀ j k, TrueDesc s L j → some k ∈ (s j).followers →
      (s k).leader = some j → h k < h j)
    (hdata : ∀ j, TrueDesc s L j → (s j).leader ≠ none → (s j).data ≠ none)
    (hcount : ∀ (j c p q : ℕ), TrueDesc s L j → (s c).leader = some j →
      (s j).followers[p]? = some (some c) →
      (s j).followers[q]? = some (some c) → p = q) :
    ∀ n : ℕ, ∀ (X : ℕ) (t : State) (fuel : ℕ),
    TrueDesc s L X → h X < n → h X < fuel →
    Evolved s t →
    (∀ j, TrueDesc s X j → t j = s j) →
    (∀ l, (s X).leader = some l → some X ∈ (t l).followers) →
    ∃ t', destructDW fuel t X = some t' ∧
      Evolved s t' ∧
      (∀ m, ¬ TrueDesc s X m → (s X).leader ≠ some m → t' m = t m) ∧
      (∀ j, TrueDesc s X j → j ≠ X → (t' j).data = none) ∧
      ((s X).leader = none → (t' X).data = (t X).data) ∧
      ((s X).leader ≠ none → (t' X).data = none) ∧
      (∀ j, TrueDesc s X j → ∀ (p c : ℕ),
        (s j).followers[p]? = some (some c) → (s c).leader = some j →
        (t' j).followers[p]? = some none) ∧
      (∀ j, TrueDesc s X j → ∀ p : ℕ,
        (∀ c : ℕ, (s j).followers[p]? = some (some c) →
          (s c).leader ≠ some j) →
        (t' j).followers[p]? = (s j).followers[p]?) ∧
      (∀ l, (s X).leader = some l →
        (t' l).data = (t l).data ∧ (t' l).leader = (t l).leader ∧
        (t' l).ident = (t l).ident ∧
        ∃ i0, firstIdx (some X) (t l).followers = some i0 ∧
          (t' l).followers = (t l).followers.set i0 none) := by
  intro n
  induction n with
  | zero =>
    intro X t fuel hX hn
    exact absurd hn (Nat.not_lt_zero _)
  | succ n ih =>
    intro X t fuel hX hn hfuel hEv hagr hpres
    obtain ⟨f, rfl⟩ : ∃ f, fuel = f + 1 := ⟨fuel - 1, by omega⟩
    have htX : t X = s X := hagr X TrueDesc.refl
    have hloop : ∀ (rem : ℕ), ∀ (i : ℕ) (u : State),
        i + rem = (s X).followers.length →
        Evolved s u →
        (∀ m, ¬ TrueDesc s X m → u m = t m) →
        ((u X).data = (s X).data ∧ (u X).leader = (s X).leader ∧
          (u X).followers.length = (s X).followers.length) →
        (∀ p : ℕ, i ≤ p → (u X).followers[p]? = (s X).followers[p]?) →
        (∀ p : ℕ, p < i →
          (∀ c : ℕ, (s X).followers[p]? = some (some c) →
            (s c).leader = some X → (u X).followers[p]? = some none) ∧
          ((∀ c : ℕ, (s X).followers[p]? = some (some c) →
            (s c).leader ≠ some X) →
            (u X).followers[p]? = (s X).followers[p]?)) →
        (∀ (c p : ℕ), p < i → (s X).followers[p]? = some (some c) →
          (s c).leader = some X → Dest s c u) →
        (∀ (c p : ℕ), i ≤ p → (s X).followers[p]? = some (some c) →
          (s c).leader = some X → ∀ j, TrueDesc s c j → u j = s j) →
        ∃ u', destructLoop (fun st node => destructDW f st node) X (some u)
            i rem = some u' ∧
          Evolved s u' ∧
          (∀ m, ¬ TrueDesc s X m → u' m = t m) ∧
          ((u' X).data = (s X).data ∧ (u' X).leader = (s X).leader ∧
            (u' X).followers.length = (s X).followers.length) ∧
          (∀ p : ℕ,
            (∀ c : ℕ, (s X).followers[p]? = some (some c) →
              (s c).leader = some X → (u' X).followers[p]? = some none) ∧
            ((∀ c : ℕ, (s X).followers[p]? = some (some c) →
              (s c).leader ≠ some X) →
              (u' X).followers[p]? = (s X).followers[p]?)) ∧
          (∀ (c p : ℕ), (s X).followers[p]? = some (some c) →
            (s c).leader = some X → Dest s c u') := by
      intro rem
      induction rem with
      | zero =>
        intro i u hi hEvu hfr hXrec hhi hlo hdone _hfresh
        refine ⟨u, rfl, hEvu, hfr, hXrec, ?_, ?_⟩
        · intro p
          by_cases hp : p < i
          · exact hlo p hp
          · have hplen : (s X).followers.length ≤ p := by omega
            constructor
            · intro c hc _
              rw [List.getElem?_eq_none hplen] at hc
              exact Option.noConfusion hc
            · intro _
              have hul : (u X).followers.length ≤ p := by
                rw [hXrec.2.2]; exact hplen
              rw [List.getElem?_eq_none hplen, List.getElem?_eq_none hul]
        · intro c p hc hlc
          by_cases hp : p < i
          · exact hdone c p hp hc hlc
          · have hplen : (s X).followers.length ≤ p := by omega
            rw [List.getElem?_eq_none hplen] at hc
            exact Option.noConfusion hc
      | succ rem ihrem =>
        intro i u hi hEvu hfr hXrec hhi hlo hdone hfresh
        have hilt : i < (s X).followers.length := by omega
        have hslotu : (u X).followers[i]? = (s X).followers[i]? :=
          hhi i (le_refl i)
        cases hsv : (s X).followers[i]? with
        | none =>
          rw [List.getElem?_eq_getElem hilt] at hsv
          exact Option.noConfusion hsv
        | some v =>
          cases v with
          | none =>
            have hslotu' : (u X).followers[i]? = some none := by
              rw [hslotu, hsv]
            rw [destructLoop_step_skip _ X i rem u (fun c hc => by
              rw [hslotu'] at hc; simp at hc)]
            refine ihrem (i + 1) u (by omega) hEvu hfr hXrec
              (fun p hp => hhi p (by omega)) ?_ ?_
              (fun c p hp hc hlc j hj => hfresh c p (by omega) hc hlc j hj)
            · intro p hp
              by_cases hpi : p < i
              · exact hlo p hpi
              · have hpi' : p = i := by omega
                rw [hpi']
                constructor
                · intro c hc _
                  rw [hsv] at hc
                  simp at hc
                · intro _
                  exact hslotu
            · intro c p hp hc hlc
              by_cases hpi : p < i
              · exact hdone c p hpi hc hlc
              · have hpi' : p = i := by omega
                rw [hpi', hsv] at hc
                simp at hc
          | some c =>
            by_cases hlc : (s c).leader = some X
            · have hmemc : some c ∈ (s X).followers :=
                List.mem_iff_getElem?.mpr ⟨i, hsv⟩
              have hTDXc : TrueDesc s X c :=
                TrueDesc.step X c TrueDesc.refl hmemc hlc
              have hLc : TrueDesc s L c := TrueDesc_compose s L X c hX hTDXc
              have hhc : h c < h X := hdec X c hX hmemc hlc
              have hslotu' : (u X).followers[i]? = some (some c) := by
                rw [hslotu, hsv]
              have hulc : (u c).leader = some X := by
                rw [(hEvu c).1, hlc]
              obtain ⟨t2, ht2eq, ht2Ev, ht2fr, ht2data, _ht2a, ht2b,
                  ht2sl1, ht2sl2, ht2det⟩ :=
                ih c u f hLc (by omega) (by omega) hEvu
                  (fun j hj => hfresh c i (le_refl i) hsv hlc j hj)
                  (fun l' hl' => by
                    rw [hlc] at hl'
                    obtain rfl : X = l' := by simpa using hl'
                    exact List.mem_iff_getElem?.mpr ⟨i, hslotu'⟩)
              obtain ⟨hdX, hlX, hiX, i0, hfidx, hsetX⟩ := ht2det X hlc
              have hi0 : i0 = i := by
                have hs0 := firstIdx_sound (some c) (u X).followers i0 hfidx
                rcases (hEvu X).2.2.2 i0 with he | he
                · rw [he] at hs0
                  exact hcount X c i0 i hX hlc hs0 hsv
                · rw [he] at hs0
                  simp at hs0
              rw [hi0] at hsetX
              rw [destructLoop_step_child (fun st node => destructDW f st node)
                X i rem u c hslotu' hulc]
              rw [ht2eq]
              refine ihrem (i + 1) t2 (by omega)
                (hEvu.trans (destructDW_evolved f u c t2 ht2eq))
                ?_ ?_ ?_ ?_ ?_ ?_
              · intro m hm
                have hmX : m ≠ X := fun hh => hm (by
                  rw [hh]; exact TrueDesc.refl)
                have hmc : ¬ TrueDesc s c m := fun hcm =>
                  hm (TrueDesc_compose s X c m hTDXc hcm)
                have hlne : (s c).leader ≠ some m := by
                  rw [hlc]
                  intro hh
                  injection hh with hh2
                  exact hmX hh2.symm
                rw [ht2fr m hmc hlne]
                exact hfr m hm
              · refine ⟨?_, ?_, ?_⟩
                · rw [hdX]; exact hXrec.1
                · rw [hlX]; exact hXrec.2.1
                · rw [hsetX, List.length_set]; exact hXrec.2.2
              · intro p hp
                rw [hsetX, List.getElem?_set_ne (by omega)]
                exact hhi p (by omega)
              · intro p hp
                by_cases hpi : p < i
                · have hold := hlo p hpi
                  constructor
                  · intro c' hc' hlc'
                    rw [hsetX, List.getElem?_set_ne (by omega)]
                    exact hold.1 c' hc' hlc'
                  · intro hno
                    rw [hsetX, List.getElem?_set_ne (by omega)]
                    exact hold.2 hno
                · have hpi' : p = i := by omega
                  rw [hpi']
                  constructor
                  · intro c' _ _
                    have hlt : i < (u X).followers.length := by
                      rw [hXrec.2.2]; exact hilt
                    rw [hsetX, List.getElem?_set_eq_of_lt none hlt]
                  · intro hno
                    exact absurd hlc (hno c hsv)
              · intro c' p hp hc' hlc'
                by_cases hpi : p < i
                · have hDold : Dest s c' u := hdone c' p hpi hc' hlc'
                  have hne : c' ≠ c := by
                    intro hh
                    rw [hh] at hc'
                    have := hcount X c p i hX hlc hc' hsv
                    omega
                  intro j hj
                  have hjnc : ¬ TrueDesc s c j :=
                    TrueDesc_disjoint s L h hdec X c' c hX
                      (List.mem_iff_getElem?.mpr ⟨p, hc'⟩) hlc' hmemc hlc
                      hne j hj
                  have hjX : j ≠ X := by
                    intro hh
                    rw [hh] at hj
                    exact TrueDesc_child_not_back s L h hdec X c' hX
                      (List.mem_iff_getElem?.mpr ⟨p, hc'⟩) hlc' hj
                  have hlne : (s c).leader ≠ some j := by
                    rw [hlc]
                    intro hh
                    injection hh with hh2
                    exact hjX hh2.symm
                  have ht2j : t2 j = u j := ht2fr j hjnc hlne
                  obtain ⟨hd, hs1, hs2⟩ := hDold j hj
                  refine ⟨by rw [ht2j]; exact hd, ?_, ?_⟩
                  · intro p' cc hp' hcc
                    rw [ht2j]
                    exact hs1 p' cc hp' hcc
                  · intro p' hp'
                    rw [ht2j]
                    exact hs2 p' hp'
                · have hpi' : p = i := by omega
                  rw [hpi', hsv] at hc'
                  obtain rfl : c = c' := by simpa using hc'
                  intro j hj
                  refine ⟨?_, ?_, ?_⟩
                  · by_cases hjc : j = c
                    · rw [hjc]
                      exact ht2b (by rw [hlc]; simp)
                    · exact ht2data j hj hjc
                  · exact ht2sl1 j hj
                  · exact ht2sl2 j hj
              · intro c'' p hp hc'' hlc'' j hj
                have hne : c'' ≠ c := by
                  intro hh
                  rw [hh] at hc''
                  have := hcount X c p i hX hlc hc'' hsv
                  omega
                have hjnc : ¬ TrueDesc s c j :=
                  TrueDesc_disjoint s L h hdec X c'' c hX
                    (List.mem_iff_getElem?.mpr ⟨p, hc''⟩) hlc'' hmemc hlc
                    hne j hj
                have hjX : j ≠ X := by
                  intro hh
                  rw [hh] at hj
                  exact TrueDesc_child_not_back s L h hdec X c'' hX
                    (List.mem_iff_getElem?.mpr ⟨p, hc''⟩) hlc'' hj
                have hlne : (s c).leader ≠ some j := by
                  rw [hlc]
                  intro hh
                  injection hh with hh2
                  exact hjX hh2.symm
                rw [ht2fr j hjnc hlne]
                exact hfresh c'' p (by omega) hc'' hlc'' j hj
            · rw [destructLoop_step_skip _ X i rem u (fun c' hc' => by
                rw [hslotu, hsv] at hc'
                obtain rfl : c = c' := by simpa using hc'
                rw [(hEvu c).1]
                exact hlc)]
              refine ihrem (i + 1) u (by omega) hEvu hfr hXrec
                (fun p hp => hhi p (by omega)) ?_ ?_
                (fun c' p hp hc' hlc' j hj =>
                  hfresh c' p (by omega) hc' hlc' j hj)
              · intro p hp
                by_cases hpi : p < i
                · exact hlo p hpi
                · have hpi' : p = i := by omega
                  rw [hpi']
                  constructor
                  · intro c' hc' hlc'
                    rw [hsv] at hc'
                    obtain rfl : c = c' := by simpa using hc'
                    exact absurd hlc' hlc
                  · intro _
                    exact hslotu
              · intro c' p hp hc' hlc'
                by_cases hpi : p < i
                · exact hdone c' p hpi hc' hlc'
                · have hpi' : p = i := by omega
                  rw [hpi', hsv] at hc'
                  obtain rfl : c = c' := by simpa using hc'
                  exact absurd hlc' hlc
    obtain ⟨u', heq, hEvu', hfru', hXrec', hSC, hDest⟩ :=
      hloop ((s X).followers.length) 0 t (by omega)
        hEv (fun m _ => rfl)
        (by rw [htX]; exact ⟨rfl, rfl, rfl⟩)
        (fun p _ => by rw [htX])
        (fun p hp => absurd hp (by omega))
        (fun c p hp _ _ => absurd hp (by omega))
        (fun c p _ hc hlc j hj =>
          hagr j (TrueDesc_compose s X c j
            (TrueDesc.step X c TrueDesc.refl
              (List.mem_iff_getElem?.mpr ⟨p, hc⟩) hlc) hj))
    have hlen2 : (t X).followers.length = (s X).followers.length := by
      rw [htX]
    cases hl0 : (s X).leader with
    | none =>
      have hlead' : (u' X).leader = none := by rw [hXrec'.2.1, hl0]
      have hDW : destructDW (f + 1) t X = some u' := by
        rw [destructDW, hlen2]
        simp only [heq, hlead']
      refine ⟨u', hDW, hEvu', ?_, ?_, ?_, ?_, ?_, ?_, ?_⟩
      · intro m hm _
        exact hfru' m hm
      · intro j hj hjX
        obtain ⟨cj, hcjm, hcjl, hcjd⟩ := TrueDesc_decompose s X j hj hjX
        obtain ⟨pj, hpj⟩ := List.mem_iff_getElem?.mp hcjm
        exact (hDest cj pj hpj hcjl j hcjd).1
      · intro _
        rw [hXrec'.1, htX]
      · intro hne
        exact absurd rfl hne
      · intro j hj p c hpc hlcp
        by_cases hjX : j = X
        · rw [hjX] at hpc hlcp ⊢
          exact (hSC p).1 c hpc hlcp
        · obtain ⟨cj, hcjm, hcjl, hcjd⟩ := TrueDesc_decompose s X j hj hjX
          obtain ⟨pj, hpj⟩ := List.mem_iff_getElem?.mp hcjm
          exact (hDest cj pj hpj hcjl j hcjd).2.1 p c hpc hlcp
      · intro j hj p hno
        by_cases hjX : j = X
        · rw [hjX] at hno ⊢
          exact (hSC p).2 hno
        · obtain ⟨cj, hcjm, hcjl, hcjd⟩ := TrueDesc_decompose s X j hj hjX
          obtain ⟨pj, hpj⟩ := List.mem_iff_getElem?.mp hcjm
          exact (hDest cj pj hpj hcjl j hcjd).2.2 p hno
      · intro l' hl'
        exact Option.noConfusion hl'
    | some l =>
      have hlead' : (u' X).leader = some l := by rw [hXrec'.2.1, hl0]
      have hlnX : l ≠ X := by
        intro hh
        rw [hh] at hl0
        have hmem : some X ∈ (s X).followers := by
          have hmm := hpres X hl0
          rw [htX] at hmm
          exact hmm
        exact absurd (hdec X X hX hmem hl0) (by omega)
      have hnTD : ¬ TrueDesc s X l := by
        intro hTD
        have htl : t l = s l := hagr l hTD
        have hmem : some X ∈ (s l).followers := by
          have hmm := hpres l hl0
          rw [htl] at hmm
          exact hmm
        have hd1 : h X < h l :=
          hdec l X (TrueDesc_compose s L X l hX hTD) hmem hl0
        have hd2 : h l < h X := TrueDesc_h_lt s L h hdec X hX l hTD hlnX
        omega
      have hfl : u' l = t l := hfru' l hnTD
      have hmem' : some X ∈ (u' l).followers := by
        rw [hfl]
        exact hpres l hl0
      obtain ⟨i0, hfidx⟩ : ∃ i0, firstIdx (some X) (u' l).followers =
          some i0 := by
        cases hfi : firstIdx (some X) (u' l).followers with
        | none =>
          have hq := firstIdx_isSome_of_mem (some X) (u' l).followers hmem'
          rw [hfi] at hq
          simp at hq
        | some i0 => exact ⟨i0, rfl⟩
      obtain ⟨b, hb⟩ : ∃ b, (u' X).data = some b := by
        have hd : (s X).data ≠ none := hdata X hX (by rw [hl0]; simp)
        rw [hXrec'.1]
        cases hdd : (s X).data with
        | none => exact absurd hdd hd
        | some b => exact ⟨b, rfl⟩
      obtain ⟨t', hdf, hteX, htel, hfrm'⟩ :=
        destructFollower_effects u' l X i0 hfidx hlead' b hb hlnX
      have hDW : destructDW (f + 1) t X = some t' := by
        rw [destructDW, hlen2]
        simp only [heq, hlead']
        exact hdf
      have hEvt' : Evolved s t' :=
        hEvu'.trans (destructFollower_evolved u' l X t' hdf)
      refine ⟨t', hDW, hEvt', ?_, ?_, ?_, ?_, ?_, ?_, ?_⟩
      · intro m hm hlm
        have hmX : m ≠ X := fun hh => hm (by
          rw [hh]; exact TrueDesc.refl)
        have hml : m ≠ l := by
          intro hh
          rw [hh] at hlm
          exact hlm rfl
        rw [hfrm' m hmX hml]
        exact hfru' m hm
      · intro j hj hjX
        have hjl : j ≠ l := by
          intro hh
          rw [hh] at hj
          exact hnTD hj
        rw [hfrm' j hjX hjl]
        obtain ⟨cj, hcjm, hcjl, hcjd⟩ := TrueDesc_decompose s X j hj hjX
        obtain ⟨pj, hpj⟩ := List.mem_iff_getElem?.mp hcjm
        exact (hDest cj pj hpj hcjl j hcjd).1
      · intro h0
        exact Option.noConfusion h0
      · intro _
        rw [hteX]
      · intro j hj p c hpc hlcp
        by_cases hjX : j = X
        · rw [hjX] at hpc hlcp ⊢
          have hfo : (t' X).followers = (u' X).followers := by rw [hteX]
          rw [hfo]
          exact (hSC p).1 c hpc hlcp
        · have hjl : j ≠ l := by
            intro hh
            rw [hh] at hj
            exact hnTD hj
          rw [hfrm' j hjX hjl]
          obtain ⟨cj, hcjm, hcjl, hcjd⟩ := TrueDesc_decompose s X j hj hjX
          obtain ⟨pj, hpj⟩ := List.mem_iff_getElem?.mp hcjm
          exact (hDest cj pj hpj hcjl j hcjd).2.1 p c hpc hlcp
      · intro j hj p hno
        by_cases hjX : j = X
        · rw [hjX] at hno ⊢
          have hfo : (t' X).followers = (u' X).followers := by rw [hteX]
          rw [hfo]
          exact (hSC p).2 hno
        · have hjl : j ≠ l := by
            intro hh
            rw [hh] at hj
            exact hnTD hj
          rw [hfrm' j hjX hjl]
          obtain ⟨cj, hcjm, hcjl, hcjd⟩ := TrueDesc_decompose s X j hj hjX
          obtain ⟨pj, hpj⟩ := List.mem_iff_getElem?.mp hcjm
          exact (hDest cj pj hpj hcjl j hcjd).2.2 p hno
      · intro l' hl'
        obtain rfl : l = l' := by simpa using hl'
        refine ⟨?_, ?_, ?_, i0, ?_, ?_⟩
        · rw [htel]
          show (u' l).data = (t l).data
          rw [hfl]
        · rw [htel]
          show (u' l).leader = (t l).leader
          rw [hfl]
        · rw [htel]
          show (u' l).ident = (t l).ident
          rw [hfl]
        · rw [← hfl]
          exact hfidx
        · rw [htel]
          show (u' l).followers.set i0 none = (t l).followers.set i0 none
          rw [hfl]

/-- Claim C7 — destruction preserves cooperators and leaves holes: for
a leader `L` (rank function `h` certifying the true-follower graph
acyclic, every node with a leader owning data, every child in one slot
of its leader) with true follower `F` and cooperator `C` (`C`'s
authoritative leader is elsewhere, and `C` is not a true descendant of
`L`), `L.destroy()` (with `L`'s own data falsy, so the pre-delete is a
no-op) succeeds, `C` is left entirely untouched, `F` — and every proper
true descendant of `L` — has its data released, and `L`'s follower list
keeps its length with exactly the true-child slots replaced by holes:
every other slot (in particular `C`'s) keeps its index and contents. -/
theorem claim_C7_destroy_preserves_cooperators
    (s : State) (L F C : ℕ) (h : ℕ → ℕ)
    (hdec : ∀ j k, TrueDesc s L j → some k ∈ (s j).followers →
      (s k).leader = some j → h k < h j)
    (hdata : ∀ j, TrueDesc s L j → (s j).leader ≠ none → (s j).data ≠ none)
    (hcount : ∀ (j c p q : ℕ), TrueDesc s L j → (s c).leader = some j →
      (s j).followers[p]? = some (some c) →
      (s j).followers[q]? = some (some c) → p = q)
    (hpres : ∀ l, (s L).leader = some l → some L ∈ (s l).followers)
    (hF : some F ∈ (s L).followers) (hFl : (s F).leader = some L)
    (hC : some C ∈ (s L).followers) (hCl : (s C).leader ≠ some L)
    (hCnd : ¬ TrueDesc s L C) (hCnl : (s L).leader ≠ some C)
    (hLdata : (s L).data = some false) :
    ∃ s', destruct (h L + 1) s L = some s' ∧
      s' C = s C ∧
      (s' F).data = none ∧
      (∀ j, TrueDesc s L j → j ≠ L → (s' j).data = none) ∧
      (s' L).followers.length = (s L).followers.length ∧
      (∀ (p c : ℕ), (s L).followers[p]? = some (some c) →
        (s c).leader = some L → (s' L).followers[p]? = some none) ∧
      (∀ p : ℕ, (∀ c : ℕ, (s L).followers[p]? = some (some c) →
        (s c).leader ≠ some L) →
        (s' L).followers[p]? = (s L).followers[p]?) ∧
      some C ∈ (s' L).followers := by
  obtain ⟨t', hDW, hEv, hfr, hdat, _h4a, _h4b, hsl1, hsl2, _hdet⟩ :=
    destructDW_main s L h hdec hdata hcount (h L + 1) L s (h L + 1)
      TrueDesc.refl (by omega) (by omega) (Evolved.refl s)
      (fun j _ => rfl) hpres
  have hde : destruct (h L + 1) s L = destructDW (h L + 1) s L := by
    simp [destruct, hLdata]
  have hFdesc : TrueDesc s L F := TrueDesc.step L F TrueDesc.refl hF hFl
  have hFL : F ≠ L := by
    have hlt := hdec L F TrueDesc.refl hF hFl
    intro hh
    rw [hh] at hlt
    omega
  refine ⟨t', hde.trans hDW, hfr C hCnd hCnl, hdat F hFdesc hFL,
    hdat, (hEv L).2.2.1, hsl1 L TrueDesc.refl, hsl2 L TrueDesc.refl, ?_⟩
  obtain ⟨p, hp⟩ := List.mem_iff_getElem?.mp hC
  have hkeep : (t' L).followers[p]? = (s L).followers[p]? :=
    hsl2 L TrueDesc.refl p (fun c hc => by
      rw [hp] at hc
      obtain rfl : C = c := by simpa using hc
      exact hCl)
  exact List.mem_iff_getElem?.mpr ⟨p, by rw [hkeep, hp]⟩

/-- A concrete four-node heap for the C7 witness: `0 = L` (data falsy,
slots `[some 1, some 2]`), `1 = F` a true follower of `L` with its own
true follower `3 = G`, `2 = C` a cooperator in `L`'s list whose
authoritative leader is elsewhere (unset). -/
def exC7 : State := fun n =>
  if n = 0 then { initNode "L" with followers := [some 1, some 2] }
  else if n = 1 then
    { initNode "F" with
        data := some true, leader := some 0, followers := [some 3] }
  else if n = 2 then { initNode "C" with data := some true }
  else if n = 3 then
    { initNode "G" with data := some true, leader := some 1 }
  else initNode "x"

/-- A rank function witnessing acyclicity of `exC7`'s true-follower
graph. -/
def exC7rank : ℕ → ℕ := fun n =>
  if n = 0 then 2 else if n = 1 then 1 else 0

lemma exC7_slots0 : ∀ (r cc : ℕ),
    (exC7 0).followers[r]? = some (some cc) →
    (r = 0 ∧ cc = 1) ∨ (r = 1 ∧ cc = 2) := by
  intro r cc hr
  have hfo : (exC7 0).followers = [some 1, some 2] := rfl
  rw [hfo] at hr
  cases r with
  | zero => exact Or.inl ⟨rfl, by simp at hr; omega⟩
  | succ r =>
    cases r with
    | zero => exact Or.inr ⟨rfl, by simp at hr; omega⟩
    | succ r => simp at hr

lemma exC7_slots1 : ∀ (r cc : ℕ),
    (exC7 1).followers[r]? = some (some cc) → r = 0 ∧ cc = 3 := by
  intro r cc hr
  have hfo : (exC7 1).followers = [some 3] := rfl
  rw [hfo] at hr
  cases r with
  | zero => exact ⟨rfl, by simp at hr; omega⟩
  | succ r => simp at hr

lemma exC7_empty (j : ℕ) (h0 : j ≠ 0) (h1 : j ≠ 1) :
    (exC7 j).followers = [] := by
  by_cases h2 : j = 2
  · rw [h2]; rfl
  · by_cases h3 : j = 3
    · rw [h3]; rfl
    · simp [exC7, h0, h1, h2, h3, initNode]

lemma exC7_dec : ∀ j k, TrueDesc exC7 0 j →
    some k ∈ (exC7 j).followers → (exC7 k).leader = some j →
    exC7rank k < exC7rank j := by
  intro j k _ hmem hl
  by_cases h0 : j = 0
  · subst h0
    obtain ⟨r, hr⟩ := List.mem_iff_getElem?.mp hmem
    rcases exC7_slots0 r k hr with ⟨_, rfl⟩ | ⟨_, rfl⟩
    · decide
    · exact absurd hl (by decide)
  · by_cases h1 : j = 1
    · subst h1
      obtain ⟨r, hr⟩ := List.mem_iff_getElem?.mp hmem
      obtain ⟨_, rfl⟩ := exC7_slots1 r k hr
      decide
    · rw [exC7_empty j h0 h1] at hmem
      simp at hmem

lemma exC7_data : ∀ j, TrueDesc exC7 0 j → (exC7 j).leader ≠ none →
    (exC7 j).data ≠ none := by
  intro j _ hl
  by_cases h0 : j = 0
  · subst h0; decide
  · by_cases h1 : j = 1
    · subst h1; decide
    · by_cases h2 : j = 2
      · subst h2; decide
      · by_cases h3 : j = 3
        · subst h3; decide
        · exfalso
          apply hl
          simp [exC7, h0, h1, h2, h3, initNode]

lemma exC7_count : ∀ (j c p q : ℕ), TrueDesc exC7 0 j →
    (exC7 c).leader = some j →
    (exC7 j).followers[p]? = some (some c) →
    (exC7 j).followers[q]? = some (some c) → p = q := by
  intro j c p q _ _ hp hq
  by_cases h0 : j = 0
  · subst h0
    rcases exC7_slots0 p c hp with ⟨hp1, hp2⟩ | ⟨hp1, hp2⟩ <;>
      rcases exC7_slots0 q c hq with ⟨hq1, hq2⟩ | ⟨hq1, hq2⟩ <;> omega
  · by_cases h1 : j = 1
    · subst h1
      obtain ⟨hp1, _⟩ := exC7_slots1 p c hp
      obtain ⟨hq1, _⟩ := exC7_slots1 q c hq
      omega
    · rw [exC7_empty j h0 h1] at hp
      simp at hp

lemma exC7_nd : ¬ TrueDesc exC7 0 2 := by
  intro hTD
  rcases TrueDesc_inv exC7 0 2 hTD with hh | ⟨pp, _, _, hlp⟩
  · exact absurd hh (by decide)
  · rw [show (exC7 2).leader = none from rfl] at hlp
    exact Option.noConfusion hlp

/-- Witness for claim C7 at the concrete heap `exC7`: destroying node
`0` (`L`, fuel `exC7rank 0 + 1 = 3`) succeeds; the cooperator node `2`
is entirely untouched, the true follower node `1` has its data
released, and node `2` is still in `L`'s follower list. -/
theorem claim_C7_witness :
    ∃ s', destruct (exC7rank 0 + 1) exC7 0 = some s' ∧
      s' 2 = exC7 2 ∧ (s' 1).data = none ∧ some 2 ∈ (s' 0).followers := by
  obtain ⟨s', h1, h2, h3, _h4, _h5, _h6, _h7, h8⟩ :=
    claim_C7_destroy_preserves_cooperators exC7 0 1 2 exC7rank
      exC7_dec exC7_data exC7_count
      (fun l hl => by
        rw [show (exC7 0).leader = none from rfl] at hl
        exact Option.noConfusion hl)
      (by decide) (by decide) (by decide) (by decide)
      exC7_nd (by decide) (by decide)
  exact ⟨s', h1, h2, h3, h8⟩

/-- Witness for claim C10: the two parts at a concrete state — the
at-most-one-leader property applied to a state where node 2 follows node
0, and the re-pointing scenario `0.setFollower(2)` then
`1.setFollower(2)`. -/
theorem claim_C10_witness :
    (0 : ℕ) = 0 ∧
    (((setFollower (setFollower (fun _ => initNode "") 0 2) 1 2) 2).leader
        = some 1 ∧
      some 2 ∈ ((setFollower (setFollower (fun _ => initNode "") 0 2) 1 2)
        0).followers ∧
      ¬ isFollower (setFollower (setFollower (fun _ => initNode "") 0 2) 1 2)
        0 2 ∧
      isCooperator (setFollower (setFollower (fun _ => initNode "") 0 2) 1 2)
        0 2) :=
  ⟨claim_C10_unique_leader.1 (setFollower (fun _ => initNode "") 0 2) 2 0 0
      (by decide) (by decide),
   claim_C10_unique_leader.2 (fun _ => initNode "") 0 1 2 (by decide)⟩

end GrayBoxes
